import Mathlib

/-! Bedrock LevelDB record decoding (`overviewer_core/src/leveldb.cc`).

A shallow embedding of the record decoders of `leveldb.cc` and theorems about them.

Modelling conventions.

* A byte is a `Fin 256`.  A `std::string` is seen by the code through `c_str()`: its bytes, the
  terminating NUL, and then whatever the address space holds after the buffer (`beyond`).  The
  decoders never compare an offset with the size of the value, so their reads may land there.
* `size_t` is 64 bits wide; subtraction on it wraps modulo `2 ^ 64`.
* The `uint8_t` bit-fields of the `BlockData_*` structs are laid out as GCC, Clang and MSVC do on
  little-endian targets: fields are allocated from the least significant bit of a byte, and a field
  that does not fit in what is left of the byte starts the next byte.
* The target is little-endian; keys are the leading bytes of the key structs.
* Python objects are modelled by the values the code stores in them.  A dictionary is a finite
  mapping from strings, kept as a list with one pair per key in the order in which the keys were
  first inserted: `PyDict_SetItem` replaces the value of a key that is present and puts a new
  key behind the others.  The order of a returned dictionary is this order of insertion; the
  slots of the hash table of the interpreter are not modelled.
* `leveldb_reference` is passed to the two entry points as the list of opened stores by path;
  the store itself is the collaborator `DB`: point lookup with its status code, and the keys in
  the order of iteration.
* Console tracing and `dump_to_file` have no effect on the results and are left out.
-/

namespace Leveldb

/-! ## Bytes, strings and machine integers -/

abbrev Byte := Fin 256

/-- Conversion of a number to `unsigned char`. -/
def byte (n : Nat) : Byte := ⟨n % 256, Nat.mod_lt n (by decide)⟩

/-- A `std::string` value together with the memory that follows its buffer. -/
structure StdString where
  bytes : List Byte
  beyond : Nat → Byte

/-- The result of `value.size()`. -/
def StdString.size (s : StdString) : Nat := s.bytes.length

/-- The byte at `value.c_str() + i`: a byte of the string, its NUL terminator, or what follows. -/
def StdString.c_str (s : StdString) (i : Nat) : Byte :=
  match s.bytes[i]? with
  | some b => b
  | none => if i = s.bytes.length then 0 else s.beyond (i - s.bytes.length - 1)

/-- The bytes of `std::string(value.c_str() + raw, n)`. -/
def StdString.copy (s : StdString) (raw n : Nat) : List Byte :=
  (List.range n).map (fun i => s.c_str (raw + i))

/-- Subtraction on `size_t`. -/
def subSize (size k : Nat) : Nat := (size + 2 ^ 64 - k) % 2 ^ 64

/-- No object, hence no `std::string`, is larger than `PTRDIFF_MAX` bytes. -/
def PTRDIFF_MAX : Nat := 2 ^ 63 - 1

/-- The four bytes of an `int32_t` in memory (little-endian, two's complement). -/
def int32Bytes (v : Int) : List Byte :=
  let u := (v % 2 ^ 32).toNat
  [byte u, byte (u / 2 ^ 8), byte (u / 2 ^ 16), byte (u / 2 ^ 24)]

/-- The `int16_t` stored in two consecutive bytes (little-endian, two's complement). -/
def int16 (lo hi : Byte) : Int :=
  let u := lo.val + 256 * hi.val
  if u < 2 ^ 15 then (u : Int) else (u : Int) - 2 ^ 16

/-- The `int32_t` stored in four consecutive bytes (little-endian, two's complement). -/
def int32 (b0 b1 b2 b3 : Byte) : Int :=
  let u : Nat := b0.val + 2 ^ 8 * b1.val + 2 ^ 16 * b2.val + 2 ^ 24 * b3.val
  if u < 2 ^ 31 then (u : Int) else (u : Int) - 2 ^ 32

/-- The characters `%d` prints for an `int`. -/
def decimal : Int → List Char
  | .ofNat n => Nat.toDigits 10 n
  | .negSucc n => '-' :: Nat.toDigits 10 (n + 1)

/-! ## Constants and record layouts -/

def BlocksPerChunk : Nat := 16 * 16 * 16

namespace ChunkType

def Data2D : Nat := 45
def Data2DLegacy : Nat := 46
def SubChunkPrefix : Nat := 47
def LegacyTerrain : Nat := 48
def BlockEntity : Nat := 49
def Entity : Nat := 50
def PendingTicks : Nat := 51
def BlockExtraData : Nat := 52
def BiomeState : Nat := 53
def FinalizedState : Nat := 54
def Version : Nat := 118

end ChunkType

namespace Data2DKey

def KeySize : Nat := 9

/-- The first `KeySize` bytes of a `Data2DKey` with the given `x` and `z`. -/
def slice (x z : Int) : List Byte :=
  int32Bytes x ++ int32Bytes z ++ [byte ChunkType.Data2D]

end Data2DKey

namespace Data2D

def ElementCount : Nat := 256

end Data2D

namespace SubChunkKey

def KeySize : Nat := 10
def MaxSubChunkCount : Nat := 16

/-- The `KeySize` bytes of a `SubChunkKey`; `subChunkIndex` is narrowed to `uint8_t`. -/
def slice (x z : Int) (subChunkIndex : Nat) : List Byte :=
  int32Bytes x ++ int32Bytes z ++ [byte ChunkType.SubChunkPrefix, byte subChunkIndex]

end SubChunkKey

/-- A struct made of `fields` consecutive `uint8_t` bit-fields `block1_id`, `block2_id`, ... of
`width` bits each, and the number of such structs the decoder walks over. -/
structure BlockData where
  width : Nat
  fields : Nat
  StructsPerChunk : Nat

def BlockData_6 : BlockData := ⟨3, 32, BlocksPerChunk / 32⟩
def BlockData_8 : BlockData := ⟨4, 2, BlocksPerChunk / 2⟩
def BlockData_10 : BlockData := ⟨5, 32, BlocksPerChunk / 32⟩
def BlockData_12 : BlockData := ⟨6, 16, BlocksPerChunk / 16⟩

namespace BlockData

/-- How many bit-fields of this width share one byte: a field never straddles a byte. -/
def perByte (l : BlockData) : Nat := 8 / l.width

/-- The result of `sizeof` on the struct. -/
def sizeof (l : BlockData) : Nat := (l.fields + l.perByte - 1) / l.perByte

/-- The value of bit-field number `k` (counted from 0) of the struct at offset `p` of the value. -/
def field (l : BlockData) (value : StdString) (p k : Nat) : Nat :=
  ((value.c_str (p + k / l.perByte)).val >>> (k % l.perByte * l.width)) % 2 ^ l.width

/-- The unpacking loop: for each of the `StructsPerChunk` structs starting at `raw`, every
bit-field in declaration order is written to the stream as one `unsigned char`. -/
def unpack (l : BlockData) (value : StdString) (raw : Nat) : List Byte :=
  (List.range l.StructsPerChunk).flatMap fun i =>
    (List.range l.fields).map fun k => byte (l.field value (raw + i * l.sizeof) k)

end BlockData

/-! ## The store -/

/-- What `db->Get` hands back: the status code (`kOk` is 0) and the value. -/
structure GetResult where
  code : Nat
  value : StdString

/-- The key-value store collaborator: point lookup, and the keys in iteration order. -/
structure DB where
  Get : List Byte → GetResult
  keys : List (List Byte)

/-! ## Python values -/

/-- The dictionary built for one sub-chunk. -/
structure SectionDict where
  _blockinfo : List Byte
  _blockinfo_length : Nat
  _blockdata : List Byte
  _raw_blockdata : List Byte
  _bitsPerBlock : Nat
  Y : Nat
  deriving DecidableEq

inductive PyValue where
  | int (v : Int)
  | str (s : List Byte)
  | intTuple (xs : List Int)
  | sections (xs : List SectionDict)
  deriving DecidableEq

abbrev PyDict := List (String × PyValue)

def PyDict_SetItemString (dict : PyDict) (key : String) (v : PyValue) : PyDict :=
  if dict.any (fun e => e.1 == key) then
    dict.map fun e => if e.1 == key then (key, v) else e
  else dict ++ [(key, v)]

/-- `PyDict_SetItem` with a string key, for a dictionary with values of any kind.  The list
holds one pair per key: a key that is present keeps its place and gets the new value, a new key
goes behind the others. -/
def PyDict_SetItem {V : Type} (dict : List (String × V)) (key : String) (v : V) :
    List (String × V) :=
  if dict.any (fun e => e.1 == key) then
    dict.map fun e => if e.1 == key then (key, v) else e
  else dict ++ [(key, v)]

/-- `PyDict_GetItem` with a string key: what the dictionary maps the key to, if anything. -/
def PyDict_GetItem {V : Type} (dict : List (String × V)) (key : String) : Option V :=
  (dict.find? fun e => e.1 == key).map fun e => e.2

/-- The dictionary `leveldb_get_chunk_keys` returns: from the string `"x,z"` to a dictionary. -/
abbrev ChunkKeysDict := List (String × PyDict)

/-- The `RuntimeError`s the decoders set; the fields are the arguments of the format string. -/
inductive PyErr where
  | data2D (x z : Int) (code : Nat)
  | chunkVersion (x z : Int) (version : Nat)
  | unopened (leveldb_path : String)
  deriving DecidableEq

/-- How a decoder call ends: it returns `true`, it sets a Python error and returns `false`, or the
`std::string` constructor is asked for more bytes than any string can hold and throws. -/
inductive Outcome (α : Type) where
  | ok (a : α)
  | error (e : PyErr)
  | lengthError
  deriving DecidableEq

/-! ## `processData2D` -/

/-- The surface decoder.  `version` is accepted and not used, as in the source. -/
def processData2D (db : DB) (x z : Int) (version : Int) (dict : PyDict) : Outcome PyDict :=
  let status := db.Get (Data2DKey.slice x z)
  if status.code ≠ 0 then .error (.data2D x z status.code)
  else
    let data := status.value
    let heightmap := (List.range Data2D.ElementCount).map fun i =>
      int16 (data.c_str (2 * i)) (data.c_str (2 * i + 1))
    let biomes := data.copy (2 * Data2D.ElementCount) Data2D.ElementCount
    let dict := PyDict_SetItemString dict "Biomes" (.str biomes)
    let dict := PyDict_SetItemString dict "HeightMap" (.intTuple heightmap)
    .ok dict

/-! ## `processSubChunks` -/

/-- What the `switch (header_v8->bitsPerTwoBlockIds)` leaves behind: the stream of block ids, the
copy of the block array, and the read cursor (`raw` as an offset from `value.c_str()`). -/
structure BlockIds where
  block_id : List Byte
  raw_block_bytes : List Byte
  raw : Nat
  size : Nat

/-- One supported `case` of the switch: walk the structs, then copy `n` bytes and advance by `n`. -/
def unpackCase (l : BlockData) (n : Nat) (value : StdString) (raw size : Nat) : BlockIds :=
  ⟨l.unpack value raw, value.copy raw n, raw + n, subSize size n⟩

/-- The `switch (header_v8->bitsPerTwoBlockIds)`; the last branch is its `default:`. -/
def switchBitsPerTwoBlockIds (bitsPerTwoBlockIds : Nat) (value : StdString) (raw size : Nat) :
    BlockIds :=
  if bitsPerTwoBlockIds = 0x6 then unpackCase BlockData_6 1640 value raw size
  else if bitsPerTwoBlockIds = 0x8 then unpackCase BlockData_8 2048 value raw size
  else if bitsPerTwoBlockIds = 0xa then unpackCase BlockData_10 2732 value raw size
  else if bitsPerTwoBlockIds = 0xc then unpackCase BlockData_12 3280 value raw size
  else ⟨[], [], raw, size⟩

/-- The body of the loop of `processSubChunks` for a value the store returned with `kOk`:
the section appended to the list, or the way the call ends.  `raw` is kept as an offset from
`value.c_str()`.  The last step before the section is built is `std::string nbt(raw, size)`,
which throws when `size` is more than a string can hold. -/
def processSubChunk (x z : Int) (subChunkIndex : Nat) (value : StdString) :
    Outcome SectionDict :=
  let version := (value.c_str 0).val
  let raw := 1
  let size := subSize value.size 1
  if version = 0x8 then
    let bitsPerTwoBlockIds := (value.c_str (raw + 1)).val
    let raw := raw + 2
    let size := subSize size 2
    let blocks := switchBitsPerTwoBlockIds bitsPerTwoBlockIds value raw size
    let blockInfoLength := (value.c_str blocks.raw).val
    let raw := blocks.raw + 4
    let size := subSize blocks.size 4
    if size ≤ PTRDIFF_MAX then
      .ok ⟨value.copy raw size, blockInfoLength, blocks.block_id, blocks.raw_block_bytes,
        bitsPerTwoBlockIds >>> 1, subChunkIndex⟩
    else .lengthError
  else .error (.chunkVersion x z version)

/-- The loop over the sub-chunk indices, with the list built so far. -/
def processSubChunksLoop (db : DB) (x z : Int) :
    List Nat → List SectionDict → Outcome (List SectionDict)
  | [], list => .ok list
  | subChunkIndex :: rest, list =>
    let status := db.Get (SubChunkKey.slice x z subChunkIndex)
    if status.code = 0 then
      match processSubChunk x z subChunkIndex status.value with
      | .ok sectionDict => processSubChunksLoop db x z rest (list ++ [sectionDict])
      | .error e => .error e
      | .lengthError => .lengthError
    else processSubChunksLoop db x z rest list

def processSubChunks (db : DB) (x z : Int) (dict : PyDict) : Outcome PyDict :=
  match processSubChunksLoop db x z (List.range SubChunkKey.MaxSubChunkCount) [] with
  | .ok list => .ok (PyDict_SetItemString dict "Sections" (.sections list))
  | .error e => .error e
  | .lengthError => .lengthError

/-! ## `leveldb_get_chunk_keys` and `leveldb_get_chunk_data` -/

/-- The registry `leveldb_reference` of opened stores, by path. -/
abbrev leveldb_ptrmap := List (String × DB)

/-- The test `leveldb_get_chunk_keys` makes on a key of the store: a key of `Data2DKey::KeySize`
bytes is read as a `Data2DKey`, and when its `type` is `ChunkType::Data2D` its `x` and `z` are
taken. -/
def chunkOfKey (key : List Byte) : Option (Int × Int) :=
  let keysize := key.length
  if keysize = Data2DKey.KeySize then
    let x := int32 (key.getD 0 0) (key.getD 1 0) (key.getD 2 0) (key.getD 3 0)
    let z := int32 (key.getD 4 0) (key.getD 5 0) (key.getD 6 0) (key.getD 7 0)
    let type := key.getD 8 0
    if type.val = ChunkType.Data2D then some (x, z) else none
  else none

/-- The string `PyString_FromFormat("%d,%d", chunk->x, chunk->z)`. -/
def chunkKeyString (x z : Int) : String := String.mk (decimal x ++ ',' :: decimal z)

/-- The dictionary stored for a column. -/
def chunkValue (keysize : Nat) (x z : Int) : PyDict :=
  let value : PyDict := []
  let value := PyDict_SetItemString value "_keysize" (.int keysize)
  let value := PyDict_SetItemString value "_version" (.int 2)
  let value := PyDict_SetItemString value "x" (.int x)
  PyDict_SetItemString value "z" (.int z)

/-- The body of the loop of `leveldb_get_chunk_keys` for one key of the store. -/
def chunkKeysStep (retval : ChunkKeysDict) (key : List Byte) : ChunkKeysDict :=
  match chunkOfKey key with
  | some (x, z) => PyDict_SetItem retval (chunkKeyString x z) (chunkValue key.length x z)
  | none => retval

/-- The column listing: the path is looked up among the opened stores, then the keys of the
store are gone through in the order of its iterator.  Parsing of the Python arguments is not
modelled. -/
def leveldb_get_chunk_keys (leveldb_reference : leveldb_ptrmap) (leveldb_path : String) :
    Outcome ChunkKeysDict :=
  match leveldb_reference.lookup leveldb_path with
  | none => .error (.unopened leveldb_path)
  | some db => .ok (db.keys.foldl chunkKeysStep [])

/-- The data of one column: the two position entries, then the surface record, then the
sub-chunks; a decoder that returns `false` makes the call return `NULL`.  `x`, `z` and `version`
are C `int`s; parsing of the Python arguments is not modelled. -/
def leveldb_get_chunk_data (leveldb_reference : leveldb_ptrmap) (leveldb_path : String)
    (x z version : Int) : Outcome PyDict :=
  match leveldb_reference.lookup leveldb_path with
  | none => .error (.unopened leveldb_path)
  | some db =>
    let retval : PyDict := []
    let retval := PyDict_SetItemString retval "xPos" (.int x)
    let retval := PyDict_SetItemString retval "xPos" (.int z)
    match processData2D db x z version retval with
    | .ok retval => processSubChunks db x z retval
    | .error e => .error e
    | .lengthError => .lengthError

/-! ## The word-packed layout of the specification

The definitions of this section follow the words of the specification, for comparison with what
the code unpacks. -/

/-- The `k`-th little-endian 32-bit word of a block array (absent bytes count as 0). -/
def wordLE (arr : List Byte) (k : Nat) : Nat :=
  (arr.getD (4 * k) 0).val + 2 ^ 8 * (arr.getD (4 * k + 1) 0).val
    + 2 ^ 16 * (arr.getD (4 * k + 2) 0).val + 2 ^ 24 * (arr.getD (4 * k + 3) 0).val

/-- Blocks per 32-bit word for `b` bits per block. -/
def blocksPerWord (b : Nat) : Nat := 32 / b

/-- The required byte length of the block array: `4 * ceil(4096 / blocksPerWord)`. -/
def requiredBytes (b : Nat) : Nat := 4 * ((4096 + blocksPerWord b - 1) / blocksPerWord b)

/-- Block index `i` of the word-packed layout. -/
def wordPackedIndex (b : Nat) (arr : List Byte) (i : Nat) : Nat :=
  (wordLE arr (i / blocksPerWord b) >>> (i % blocksPerWord b * b)) % 2 ^ b

/-- The 4096 block indices of the word-packed layout. -/
def wordPacked (b : Nat) (arr : List Byte) : List Nat :=
  (List.range 4096).map (wordPackedIndex b arr)

/-! ## Derived notions and sample inputs -/

/-- The block id with number `n` of a run of structs starting at `raw`, when `perByte` bit-fields
of `width` bits share a byte and the structs follow each other without a gap. -/
def idAt (width perByte : Nat) (value : StdString) (raw n : Nat) : Nat :=
  ((value.c_str (raw + n / perByte)).val >>> (n % perByte * width)) % 2 ^ width

/-- The supported bits per block; the width field of a record holds twice this. -/
def Supported (b : Nat) : Prop := b = 3 ∨ b = 4 ∨ b = 5 ∨ b = 6

instance (b : Nat) : Decidable (Supported b) := by unfold Supported; infer_instance

/-- A store that holds a single record: `Get` answers `kOk` for its key and `kNotFound` (1) for
every other key; the memory behind the value is zero. -/
def dbSingle (key value : List Byte) : DB :=
  ⟨fun k => if k = key then ⟨0, ⟨value, fun _ => 0⟩⟩ else ⟨1, ⟨[], fun _ => 0⟩⟩, [key]⟩

/-- A store without records: `Get` answers `kNotFound` (1) for every key. -/
def dbEmpty : DB := ⟨fun _ => ⟨1, ⟨[], fun _ => 0⟩⟩, []⟩

/-- A store holding the given records, iterated in the given order; `Get` answers `kOk` for the
keys it holds and `kNotFound` (1) for the others; the memory behind a value is zero. -/
def dbOfList (entries : List (List Byte × List Byte)) : DB :=
  ⟨fun k =>
      match entries.lookup k with
      | some v => ⟨0, ⟨v, fun _ => 0⟩⟩
      | none => ⟨1, ⟨[], fun _ => 0⟩⟩,
    entries.map fun e => e.1⟩

/-- A surface payload of 768 bytes: height 1 at the first position, biome 7 at the first
position, zero elsewhere. -/
def surface768 : List Byte := 1 :: List.replicate 511 0 ++ 7 :: List.replicate 255 0

/-- The number a decimal digit character stands for. -/
def digitVal (c : Char) : Nat := c.toNat - 48

/-- The number a string of decimal digits stands for. -/
def parseDecimal (cs : List Char) : Nat := cs.foldl (fun a c => 10 * a + digitVal c) 0

/-- A block array of 1640 bytes in which only bit 6 of the first word is set. -/
def arrBit6 : List Byte := 0x40 :: List.replicate 1639 0

/-- A block array of 2048 bytes whose first word has the bytes `21 00 00 00`. -/
def arr21 : List Byte := 0x21 :: List.replicate 2047 0

/-- A block array of 1640 zero bytes but for `top`, the most significant byte of its first
word. -/
def arrTop (top : Byte) : List Byte := 0 :: 0 :: 0 :: top :: List.replicate 1636 0

/-- A store holding, for the column (0, 0), a 768-byte surface record, a version-8 sub-chunk
record of width 4 under index 0 and a record with the version byte 7 under index 1. -/
def dbBadVersion : DB :=
  dbOfList [(Data2DKey.slice 0 0, surface768),
    (SubChunkKey.slice 0 0 0, 8 :: 1 :: 8 :: (arr21 ++ [5, 0, 0, 0, 7, 7])),
    (SubChunkKey.slice 0 0 1, [7, 1, 8])]

/-! ## Auxiliary facts -/

theorem arrTop_length (top : Byte) : (arrTop top).length = 1640 := by
  unfold arrTop
  simp only [List.length_cons, List.length_replicate]

theorem arrTop_words (k : Nat) :
    wordLE (arrTop 0) k % 2 ^ (blocksPerWord 3 * 3)
      = wordLE (arrTop 0xC0) k % 2 ^ (blocksPerWord 3 * 3) := by
  rcases k with _ | k
  · rfl
  · have e : ∀ j, 4 * (k + 1) + j = (4 * k + j) + 1 + 1 + 1 + 1 := by intro j; omega
    have e0 := e 0
    simp only [Nat.add_zero] at e0
    simp only [wordLE, arrTop, e, e0, List.getD_cons_succ]

theorem arrBit6_length : arrBit6.length = 1640 := by
  unfold arrBit6
  rw [List.length_cons, List.length_replicate]

theorem arr21_length : arr21.length = 2048 := by
  unfold arr21
  rw [List.length_cons, List.length_replicate]

theorem flatMap_range_map {β : Type} (m : Nat) (hm : 0 < m) (f : Nat → Nat → β) (n : Nat) :
    ((List.range n).flatMap fun i => (List.range m).map (f i))
      = (List.range (n * m)).map fun j => f (j / m) (j % m) := by
  induction n with
  | zero => simp
  | succ n ih =>
    rw [List.range_succ, List.flatMap_append, ih, Nat.succ_mul, List.range_add, List.map_append]
    congr 1
    rw [List.flatMap_singleton, List.map_map]
    apply List.map_congr_left
    intro j hj
    have hj2 : j < m := List.mem_range.mp hj
    have h1 : (n * m + j) / m = n := by
      rw [Nat.mul_comm, Nat.mul_add_div hm, Nat.div_eq_of_lt hj2, Nat.add_zero]
    have h2 : (n * m + j) % m = j := by
      rw [Nat.mul_comm, Nat.mul_add_mod, Nat.mod_eq_of_lt hj2]
    simp [h1, h2]

theorem BlockData.unpack_eq_map (l : BlockData) (hl : 0 < l.fields) (value : StdString)
    (raw : Nat) :
    l.unpack value raw = (List.range (l.StructsPerChunk * l.fields)).map fun n =>
      byte (l.field value (raw + n / l.fields * l.sizeof) (n % l.fields)) := by
  unfold BlockData.unpack
  exact flatMap_range_map l.fields hl
    (fun i k => byte (l.field value (raw + i * l.sizeof) k)) l.StructsPerChunk

theorem unpack_6 (value : StdString) (raw : Nat) :
    BlockData_6.unpack value raw = (List.range 4096).map fun n => byte (idAt 3 2 value raw n) := by
  rw [BlockData.unpack_eq_map _ (by decide)]
  apply List.map_congr_left
  intro n _
  simp only [BlockData.field, BlockData.sizeof, BlockData.perByte, BlockData_6, idAt]
  have h1 : raw + n / 32 * ((32 + 8 / 3 - 1) / (8 / 3)) + n % 32 / (8 / 3) = raw + n / (8 / 3) := by
    omega
  have h2 : n % 32 % (8 / 3) = n % (8 / 3) := by omega
  rw [h1, h2]

theorem unpack_8 (value : StdString) (raw : Nat) :
    BlockData_8.unpack value raw = (List.range 4096).map fun n => byte (idAt 4 2 value raw n) := by
  rw [BlockData.unpack_eq_map _ (by decide)]
  apply List.map_congr_left
  intro n _
  simp only [BlockData.field, BlockData.sizeof, BlockData.perByte, BlockData_8, idAt]
  have h1 : raw + n / 2 * ((2 + 8 / 4 - 1) / (8 / 4)) + n % 2 / (8 / 4) = raw + n / (8 / 4) := by
    omega
  have h2 : n % 2 % (8 / 4) = n % (8 / 4) := by omega
  rw [h1, h2]

theorem unpack_10 (value : StdString) (raw : Nat) :
    BlockData_10.unpack value raw = (List.range 4096).map fun n => byte (idAt 5 1 value raw n) := by
  rw [BlockData.unpack_eq_map _ (by decide)]
  apply List.map_congr_left
  intro n _
  simp only [BlockData.field, BlockData.sizeof, BlockData.perByte, BlockData_10, idAt]
  have h1 : raw + n / 32 * ((32 + 8 / 5 - 1) / (8 / 5)) + n % 32 / (8 / 5) = raw + n / (8 / 5) := by
    omega
  have h2 : n % 32 % (8 / 5) = n % (8 / 5) := by omega
  rw [h1, h2]

theorem unpack_12 (value : StdString) (raw : Nat) :
    BlockData_12.unpack value raw = (List.range 4096).map fun n => byte (idAt 6 1 value raw n) := by
  rw [BlockData.unpack_eq_map _ (by decide)]
  apply List.map_congr_left
  intro n _
  simp only [BlockData.field, BlockData.sizeof, BlockData.perByte, BlockData_12, idAt]
  have h1 : raw + n / 16 * ((16 + 8 / 6 - 1) / (8 / 6)) + n % 16 / (8 / 6) = raw + n / (8 / 6) := by
    omega
  have h2 : n % 16 % (8 / 6) = n % (8 / 6) := by omega
  rw [h1, h2]

/-- What the switch does for the field value `2 * b` of a supported width `b`. -/
theorem switch_supported (b : Nat) (hb : Supported b) (value : StdString) (raw size : Nat) :
    switchBitsPerTwoBlockIds (2 * b) value raw size
      = ⟨(List.range 4096).map fun n => byte (idAt b (8 / b) value raw n),
          value.copy raw (requiredBytes b), raw + requiredBytes b,
          subSize size (requiredBytes b)⟩ := by
  rcases hb with rfl | rfl | rfl | rfl
  · simp [switchBitsPerTwoBlockIds, unpackCase, unpack_6, requiredBytes, blocksPerWord]
  · simp [switchBitsPerTwoBlockIds, unpackCase, unpack_8, requiredBytes, blocksPerWord]
  · simp [switchBitsPerTwoBlockIds, unpackCase, unpack_10, requiredBytes, blocksPerWord]
  · simp [switchBitsPerTwoBlockIds, unpackCase, unpack_12, requiredBytes, blocksPerWord]

theorem switch_block_id (b : Nat) (hb : Supported b) (value : StdString) (raw size : Nat) :
    (switchBitsPerTwoBlockIds (2 * b) value raw size).block_id
      = (List.range 4096).map fun n => byte (idAt b (8 / b) value raw n) := by
  rw [switch_supported b hb]

theorem switch_raw_block_bytes (b : Nat) (hb : Supported b) (value : StdString)
    (raw size : Nat) :
    (switchBitsPerTwoBlockIds (2 * b) value raw size).raw_block_bytes
      = value.copy raw (requiredBytes b) := by
  rw [switch_supported b hb]

theorem switch_raw (b : Nat) (hb : Supported b) (value : StdString) (raw size : Nat) :
    (switchBitsPerTwoBlockIds (2 * b) value raw size).raw = raw + requiredBytes b := by
  rw [switch_supported b hb]

theorem switch_size (b : Nat) (hb : Supported b) (value : StdString) (raw size : Nat) :
    (switchBitsPerTwoBlockIds (2 * b) value raw size).size = subSize size (requiredBytes b) := by
  rw [switch_supported b hb]

theorem idAt_lt (w p : Nat) (value : StdString) (raw n : Nat) : idAt w p value raw n < 2 ^ w :=
  Nat.mod_lt _ (Nat.pow_pos (by decide))

theorem byte_val_of_lt {n : Nat} (h : n < 256) : (byte n).val = n := Nat.mod_eq_of_lt h

theorem byte_idAt_val (b : Nat) (hb : Supported b) (p : Nat) (value : StdString) (raw n : Nat) :
    (byte (idAt b p value raw n)).val = idAt b p value raw n := by
  apply byte_val_of_lt
  have h := idAt_lt b p value raw n
  rcases hb with rfl | rfl | rfl | rfl <;> omega

theorem c_str_of_lt (s : StdString) (i : Nat) (h : i < s.bytes.length) :
    s.c_str i = s.bytes.get ⟨i, h⟩ := by
  simp [StdString.c_str, List.getElem?_eq_getElem h]

theorem c_str_append (pre rest : List Byte) (beyond : Nat → Byte) (i : Nat) :
    (StdString.mk (pre ++ rest) beyond).c_str (pre.length + i)
      = (StdString.mk rest beyond).c_str i := by
  simp only [StdString.c_str, List.length_append]
  rw [List.getElem?_append_right (Nat.le_add_right _ _), Nat.add_sub_cancel_left]
  have h2 : pre.length + i - (pre.length + rest.length) - 1 = i - rest.length - 1 := by omega
  cases rest[i]? with
  | some b => rfl
  | none => simp [h2]

theorem copy_eq_take_drop (s : StdString) (raw n : Nat) (h : raw + n ≤ s.bytes.length) :
    s.copy raw n = (s.bytes.drop raw).take n := by
  apply List.ext_getElem?
  intro i
  by_cases hi : i < n
  · have h3 : raw + i < s.bytes.length := by omega
    simp [StdString.copy, List.getElem?_range hi, List.getElem?_take, hi, c_str_of_lt s _ h3,
      List.getElem?_eq_getElem h3]
  · have h3 : n ≤ i := by omega
    rw [List.getElem?_eq_none (by simp [StdString.copy]; omega),
      List.getElem?_eq_none (by simp; omega)]

theorem c_str_header (a0 a1 a2 : Byte) (body : List Byte) (beyond : Nat → Byte) :
    (StdString.mk (a0 :: a1 :: a2 :: body) beyond).c_str 0 = a0
      ∧ (StdString.mk (a0 :: a1 :: a2 :: body) beyond).c_str 2 = a2
      ∧ ∀ i, (StdString.mk (a0 :: a1 :: a2 :: body) beyond).c_str (3 + i)
          = (StdString.mk body beyond).c_str i := by
  refine ⟨by simp [StdString.c_str], by simp [StdString.c_str], fun i => ?_⟩
  exact c_str_append [a0, a1, a2] body beyond i

theorem subSize_chain (n L : Nat) (h : 7 + L ≤ n) (hn : n < 2 ^ 64) :
    subSize (subSize (subSize (subSize n 1) 2) L) 4 = n - (7 + L) := by
  unfold subSize
  omega

theorem subSize_chain_wrap (n L : Nat) (h : n < 7 + L) (hL : L ≤ 2 ^ 62) :
    PTRDIFF_MAX < subSize (subSize (subSize (subSize n 1) 2) L) 4 := by
  unfold subSize PTRDIFF_MAX
  omega

/-- The loop body on a version-8 value, with the header reads resolved. -/
theorem processSubChunk_v8 (x z : Int) (subChunkIndex : Nat) (value : StdString)
    (hv : (value.c_str 0).val = 8) :
    processSubChunk x z subChunkIndex value =
      if subSize (switchBitsPerTwoBlockIds (value.c_str 2).val value 3
          (subSize (subSize value.size 1) 2)).size 4 ≤ PTRDIFF_MAX then
        .ok ⟨value.copy
            ((switchBitsPerTwoBlockIds (value.c_str 2).val value 3
              (subSize (subSize value.size 1) 2)).raw + 4)
            (subSize (switchBitsPerTwoBlockIds (value.c_str 2).val value 3
              (subSize (subSize value.size 1) 2)).size 4),
          (value.c_str (switchBitsPerTwoBlockIds (value.c_str 2).val value 3
              (subSize (subSize value.size 1) 2)).raw).val,
          (switchBitsPerTwoBlockIds (value.c_str 2).val value 3
              (subSize (subSize value.size 1) 2)).block_id,
          (switchBitsPerTwoBlockIds (value.c_str 2).val value 3
              (subSize (subSize value.size 1) 2)).raw_block_bytes,
          (value.c_str 2).val >>> 1, subChunkIndex⟩
      else .lengthError := by
  simp only [processSubChunk, hv, if_true]

theorem requiredBytes_le (b : Nat) (hb : Supported b) : requiredBytes b ≤ 3280 := by
  rcases hb with rfl | rfl | rfl | rfl <;> decide

/-- A version-8 value of a supported width that is long enough yields this section. -/
theorem processSubChunk_supported (x z : Int) (subChunkIndex b : Nat) (hb : Supported b)
    (value : StdString) (hv : (value.c_str 0).val = 8) (hf : (value.c_str 2).val = 2 * b)
    (hlen : 7 + requiredBytes b ≤ value.size) (hmax : value.size ≤ PTRDIFF_MAX) :
    processSubChunk x z subChunkIndex value =
      .ok ⟨value.bytes.drop (7 + requiredBytes b), (value.c_str (3 + requiredBytes b)).val,
        (List.range 4096).map (fun n => byte (idAt b (8 / b) value 3 n)),
        (value.bytes.drop 3).take (requiredBytes b), b, subChunkIndex⟩ := by
  have hn : value.size < 2 ^ 64 := by unfold PTRDIFF_MAX at hmax; omega
  have hs : value.size = value.bytes.length := rfl
  have hsz := subSize_chain value.size (requiredBytes b) hlen hn
  rw [processSubChunk_v8 x z subChunkIndex value hv, hf, switch_block_id b hb,
    switch_raw_block_bytes b hb, switch_raw b hb, switch_size b hb, hsz]
  have hle : value.size - (7 + requiredBytes b) ≤ PTRDIFF_MAX := by omega
  rw [if_pos hle]
  have e1 : value.copy (3 + requiredBytes b + 4) (value.size - (7 + requiredBytes b))
      = value.bytes.drop (7 + requiredBytes b) := by
    rw [copy_eq_take_drop _ _ _ (by omega)]
    have : 3 + requiredBytes b + 4 = 7 + requiredBytes b := by omega
    rw [this]
    apply List.take_of_length_le
    simp [StdString.size]
  have e2 : value.copy 3 (requiredBytes b) = (value.bytes.drop 3).take (requiredBytes b) :=
    copy_eq_take_drop _ _ _ (by omega)
  have e3 : (2 * b) >>> 1 = b := by rw [Nat.shiftRight_eq_div_pow]; omega
  rw [e1, e2, e3]

/-- A version-8 value of a supported width that is too short for the block array and the
palette header ends in the exception of the string constructor. -/
theorem processSubChunk_truncated (x z : Int) (subChunkIndex b : Nat) (hb : Supported b)
    (value : StdString) (hv : (value.c_str 0).val = 8) (hf : (value.c_str 2).val = 2 * b)
    (hlen : value.size < 7 + requiredBytes b) :
    processSubChunk x z subChunkIndex value = .lengthError := by
  have hL := requiredBytes_le b hb
  have hsz := subSize_chain_wrap value.size (requiredBytes b) hlen (by omega)
  rw [processSubChunk_v8 x z subChunkIndex value hv, hf, switch_size b hb,
    if_neg (by omega)]

theorem c_str_body (a0 a1 a2 : Byte) (arr rest : List Byte) (beyond : Nat → Byte) (i : Nat)
    (h : i < arr.length) :
    (StdString.mk (a0 :: a1 :: a2 :: (arr ++ rest)) beyond).c_str (3 + i) = arr.getD i 0 := by
  rw [(c_str_header a0 a1 a2 (arr ++ rest) beyond).2.2 i]
  simp [StdString.c_str, List.getElem?_append_left h, List.getD_eq_getElem?_getD,
    List.getElem?_eq_getElem h]

/-- With 4 bits per block, two blocks per byte is the same as eight blocks per little-endian
word. -/
theorem nibble_word (g : Nat → Nat) (hg : ∀ i, g i < 256) (n : Nat) :
    (g (n / 2) >>> (n % 2 * 4)) % 2 ^ 4
      = ((g (4 * (n / 8)) + 2 ^ 8 * g (4 * (n / 8) + 1) + 2 ^ 16 * g (4 * (n / 8) + 2)
          + 2 ^ 24 * g (4 * (n / 8) + 3)) >>> (n % 8 * 4)) % 2 ^ 4 := by
  have h0 := hg (4 * (n / 8))
  have h1 := hg (4 * (n / 8) + 1)
  have h2 := hg (4 * (n / 8) + 2)
  have h3 := hg (4 * (n / 8) + 3)
  have hr : n % 8 < 8 := Nat.mod_lt _ (by decide)
  generalize hq : n / 8 = q at *
  generalize hr8 : n % 8 = r at *
  have hn : n = 8 * q + r := by omega
  subst hn
  simp only [Nat.shiftRight_eq_div_pow]
  interval_cases r
  all_goals
    first
    | (have e1 : (8 * q + 0) / 2 = 4 * q := by omega
       have e2 : (8 * q + 0) % 2 = 0 := by omega
       rw [e1, e2]; omega)
    | (have e1 : (8 * q + 1) / 2 = 4 * q := by omega
       have e2 : (8 * q + 1) % 2 = 1 := by omega
       rw [e1, e2]; omega)
    | (have e1 : (8 * q + 2) / 2 = 4 * q + 1 := by omega
       have e2 : (8 * q + 2) % 2 = 0 := by omega
       rw [e1, e2]; omega)
    | (have e1 : (8 * q + 3) / 2 = 4 * q + 1 := by omega
       have e2 : (8 * q + 3) % 2 = 1 := by omega
       rw [e1, e2]; omega)
    | (have e1 : (8 * q + 4) / 2 = 4 * q + 2 := by omega
       have e2 : (8 * q + 4) % 2 = 0 := by omega
       rw [e1, e2]; omega)
    | (have e1 : (8 * q + 5) / 2 = 4 * q + 2 := by omega
       have e2 : (8 * q + 5) % 2 = 1 := by omega
       rw [e1, e2]; omega)
    | (have e1 : (8 * q + 6) / 2 = 4 * q + 3 := by omega
       have e2 : (8 * q + 6) % 2 = 0 := by omega
       rw [e1, e2]; omega)
    | (have e1 : (8 * q + 7) / 2 = 4 * q + 3 := by omega
       have e2 : (8 * q + 7) % 2 = 1 := by omega
       rw [e1, e2]; omega)

theorem idAt4_eq_wordPacked (a0 a1 a2 : Byte) (arr rest : List Byte) (beyond : Nat → Byte)
    (harr : arr.length = 2048) (n : Nat) (hn : n < 4096) :
    idAt 4 2 (StdString.mk (a0 :: a1 :: a2 :: (arr ++ rest)) beyond) 3 n
      = wordPackedIndex 4 arr n := by
  unfold idAt wordPackedIndex wordLE blocksPerWord
  rw [c_str_body a0 a1 a2 arr rest beyond (n / 2) (by omega)]
  exact nibble_word (fun i => (arr.getD i 0).val) (fun i => (arr.getD i 0).isLt) n

theorem header_val (sgc field : Byte) (body : List Byte) (beyond : Nat → Byte) :
    ((StdString.mk (8 :: sgc :: field :: body) beyond).c_str 0).val = 8
      ∧ ((StdString.mk (8 :: sgc :: field :: body) beyond).c_str 2).val = field.val := by
  obtain ⟨h0, h2, _⟩ := c_str_header 8 sgc field body beyond
  rw [h0, h2]
  exact ⟨rfl, rfl⟩

theorem stream_length (b : Nat) (hb : Supported b) (value : StdString) (raw size : Nat) :
    (switchBitsPerTwoBlockIds (2 * b) value raw size).block_id.length = 4096 := by
  rw [switch_block_id b hb, List.length_map, List.length_range]

theorem stream_range (b : Nat) (hb : Supported b) (value : StdString) (raw size : Nat)
    (id : Byte) (hid : id ∈ (switchBitsPerTwoBlockIds (2 * b) value raw size).block_id) :
    id.val ≤ 2 ^ b - 1 := by
  rw [switch_block_id b hb, List.mem_map] at hid
  obtain ⟨n, _, rfl⟩ := hid
  rw [byte_idAt_val b hb]
  have h := idAt_lt b (8 / b) value raw n
  omega

/-- The section of a successful call carries the stream the switch produced. -/
theorem processSubChunk_blockdata (x z : Int) (subChunkIndex : Nat) (value : StdString)
    (hv : (value.c_str 0).val = 8) (s : SectionDict)
    (hs : processSubChunk x z subChunkIndex value = .ok s) :
    s._blockdata = (switchBitsPerTwoBlockIds (value.c_str 2).val value 3
      (subSize (subSize value.size 1) 2)).block_id
      ∧ s._bitsPerBlock = (value.c_str 2).val >>> 1 ∧ s.Y = subChunkIndex := by
  rw [processSubChunk_v8 x z subChunkIndex value hv] at hs
  split at hs
  · injection hs with hs
    subst hs
    exact ⟨rfl, rfl, rfl⟩
  · cases hs

theorem stream4_val (sgc : Byte) (arr rest : List Byte) (beyond : Nat → Byte)
    (harr : arr.length = 2048) (size : Nat) :
    (switchBitsPerTwoBlockIds 8 (StdString.mk (8 :: sgc :: 8 :: (arr ++ rest)) beyond) 3
        size).block_id.map Fin.val = wordPacked 4 arr := by
  have h := switch_block_id 4 (by decide)
    (StdString.mk (8 :: sgc :: 8 :: (arr ++ rest)) beyond) 3 size
  have e : (2 * 4 : Nat) = 8 := rfl
  rw [e] at h
  rw [h, List.map_map]
  unfold wordPacked
  apply List.map_congr_left
  intro n hn
  have hn2 : n < 4096 := List.mem_range.mp hn
  simp only [Function.comp, byte_idAt_val 4 (by decide)]
  exact idAt4_eq_wordPacked 8 sgc 8 arr rest beyond harr n hn2

theorem wordPacked_getElem (b : Nat) (arr : List Byte) (n : Nat) (hn : n < 4096) :
    (wordPacked b arr)[n]? = some (wordPackedIndex b arr n) := by
  simp only [wordPacked, List.getElem?_map, List.getElem?_range hn, Option.map_some']

theorem wordPacked4_nibbles (arr : List Byte) (k : Nat) (hk : k < arr.length)
    (h2 : k < 2048) :
    (wordPacked 4 arr)[2 * k]? = some (arr[k].val % 16)
      ∧ (wordPacked 4 arr)[2 * k + 1]? = some (arr[k].val / 16) := by
  have hlt := arr[k].isLt
  have hg : (arr.getD k 0).val = arr[k].val := by
    rw [List.getD_eq_getElem _ _ hk]
  have key := nibble_word (fun i => (arr.getD i 0).val) (fun i => (arr.getD i 0).isLt)
  constructor
  · rw [wordPacked_getElem 4 arr (2 * k) (by omega)]
    have h := key (2 * k)
    have e1 : 2 * k / 2 = k := by omega
    have e2 : 2 * k % 2 = 0 := by omega
    simp only [e1, e2, hg] at h
    refine congrArg some (Eq.trans h.symm ?_)
    simp only [Nat.shiftRight_eq_div_pow]
    omega
  · rw [wordPacked_getElem 4 arr (2 * k + 1) (by omega)]
    have h := key (2 * k + 1)
    have e1 : (2 * k + 1) / 2 = k := by omega
    have e2 : (2 * k + 1) % 2 = 1 := by omega
    simp only [e1, e2, hg] at h
    refine congrArg some (Eq.trans h.symm ?_)
    simp only [Nat.shiftRight_eq_div_pow]
    omega

/-- The section produced for a version-8 value of a supported width that is long enough, field
by field. -/
theorem processSubChunk_supported_section (x z : Int) (subChunkIndex b : Nat)
    (hb : Supported b) (value : StdString) (hv : (value.c_str 0).val = 8)
    (hf : (value.c_str 2).val = 2 * b) (hlen : 7 + requiredBytes b ≤ value.size)
    (hmax : value.size ≤ PTRDIFF_MAX) :
    ∃ s, processSubChunk x z subChunkIndex value = .ok s
      ∧ s._blockinfo = value.bytes.drop (7 + requiredBytes b)
      ∧ s._blockinfo_length = (value.c_str (3 + requiredBytes b)).val
      ∧ s._blockdata = (switchBitsPerTwoBlockIds (2 * b) value 3
          (subSize (subSize value.size 1) 2)).block_id
      ∧ s._raw_blockdata = (value.bytes.drop 3).take (requiredBytes b)
      ∧ s._bitsPerBlock = b ∧ s.Y = subChunkIndex := by
  refine ⟨_, processSubChunk_supported x z subChunkIndex b hb value hv hf hlen hmax,
    rfl, rfl, ?_, rfl, rfl, rfl⟩
  rw [switch_block_id b hb]

/-- Two words that agree on their low 30 bits have bytes that agree on their low 6 bits. -/
theorem bytes_agree_of_words (g1 g2 : Nat → Nat) (hg1 : ∀ i, g1 i < 256)
    (hg2 : ∀ i, g2 i < 256) (k : Nat)
    (hw : (g1 (4 * k) + 2 ^ 8 * g1 (4 * k + 1) + 2 ^ 16 * g1 (4 * k + 2)
            + 2 ^ 24 * g1 (4 * k + 3)) % 2 ^ 30
        = (g2 (4 * k) + 2 ^ 8 * g2 (4 * k + 1) + 2 ^ 16 * g2 (4 * k + 2)
            + 2 ^ 24 * g2 (4 * k + 3)) % 2 ^ 30) :
    g1 (4 * k) % 64 = g2 (4 * k) % 64 ∧ g1 (4 * k + 1) % 64 = g2 (4 * k + 1) % 64
      ∧ g1 (4 * k + 2) % 64 = g2 (4 * k + 2) % 64
      ∧ g1 (4 * k + 3) % 64 = g2 (4 * k + 3) % 64 := by
  have a0 := hg1 (4 * k)
  have a1 := hg1 (4 * k + 1)
  have a2 := hg1 (4 * k + 2)
  have a3 := hg1 (4 * k + 3)
  have b0 := hg2 (4 * k)
  have b1 := hg2 (4 * k + 1)
  have b2 := hg2 (4 * k + 2)
  have b3 := hg2 (4 * k + 3)
  omega

theorem pow_padding (b : Nat) (hb : b = 3 ∨ b = 5 ∨ b = 6) :
    2 ^ (blocksPerWord b * b) = 2 ^ 30 ∧ requiredBytes b % 4 = 0 := by
  rcases hb with rfl | rfl | rfl <;> exact ⟨rfl, by decide⟩

/-- Block arrays whose words agree below the padding bits have bytes that agree on their low 6
bits. -/
theorem getD_agree (b : Nat) (hb : b = 3 ∨ b = 5 ∨ b = 6) (arr1 arr2 : List Byte)
    (hw : ∀ k, k < requiredBytes b / 4 →
      wordLE arr1 k % 2 ^ (blocksPerWord b * b) = wordLE arr2 k % 2 ^ (blocksPerWord b * b))
    (i : Nat) (hi : i < requiredBytes b) :
    (arr1.getD i 0).val % 64 = (arr2.getD i 0).val % 64 := by
  obtain ⟨hp, h4⟩ := pow_padding b hb
  have hk : i / 4 < requiredBytes b / 4 := by omega
  have h := hw (i / 4) hk
  rw [hp] at h
  obtain ⟨c0, c1, c2, c3⟩ := bytes_agree_of_words (fun j => (arr1.getD j 0).val)
    (fun j => (arr2.getD j 0).val) (fun j => (arr1.getD j 0).isLt)
    (fun j => (arr2.getD j 0).isLt) (i / 4) h
  have hr : i % 4 < 4 := Nat.mod_lt _ (by decide)
  have hi4 : i = 4 * (i / 4) + i % 4 := by omega
  generalize i / 4 = q at *
  generalize i % 4 = r at *
  subst hi4
  interval_cases r
  · exact c0
  · exact c1
  · exact c2
  · exact c3

/-- Records that differ only in padding bits of the block array agree, byte by byte, on the low
6 bits of everything behind the header. -/
theorem c_str_agree (b : Nat) (hb : b = 3 ∨ b = 5 ∨ b = 6) (a0 a1 a2 : Byte)
    (arr1 arr2 rest : List Byte) (beyond : Nat → Byte)
    (h1 : arr1.length = requiredBytes b) (h2 : arr2.length = requiredBytes b)
    (hw : ∀ k, k < requiredBytes b / 4 →
      wordLE arr1 k % 2 ^ (blocksPerWord b * b) = wordLE arr2 k % 2 ^ (blocksPerWord b * b))
    (m : Nat) :
    ((StdString.mk (a0 :: a1 :: a2 :: (arr1 ++ rest)) beyond).c_str (3 + m)).val % 64
      = ((StdString.mk (a0 :: a1 :: a2 :: (arr2 ++ rest)) beyond).c_str (3 + m)).val % 64 := by
  by_cases hm : m < requiredBytes b
  · rw [c_str_body a0 a1 a2 arr1 rest beyond m (by omega),
      c_str_body a0 a1 a2 arr2 rest beyond m (by omega)]
    exact getD_agree b hb arr1 arr2 hw m hm
  · rw [(c_str_header a0 a1 a2 (arr1 ++ rest) beyond).2.2 m,
      (c_str_header a0 a1 a2 (arr2 ++ rest) beyond).2.2 m]
    have e1 : m = arr1.length + (m - requiredBytes b) := by omega
    have e2 : m = arr2.length + (m - requiredBytes b) := by omega
    have c1 := c_str_append arr1 rest beyond (m - requiredBytes b)
    have c2 := c_str_append arr2 rest beyond (m - requiredBytes b)
    rw [← e1] at c1
    rw [← e2] at c2
    rw [c1, c2]

/-- The block ids read only the low 6 bits of each byte. -/
theorem idAt_agree (b : Nat) (hb : b = 3 ∨ b = 5 ∨ b = 6) (v1 v2 : StdString)
    (h : ∀ m, (v1.c_str (3 + m)).val % 64 = (v2.c_str (3 + m)).val % 64) (n : Nat) :
    idAt b (8 / b) v1 3 n = idAt b (8 / b) v2 3 n := by
  unfold idAt
  simp only [Nat.shiftRight_eq_div_pow]
  rcases hb with rfl | rfl | rfl
  · have hm := h (n / (8 / 3))
    have hr : n % 2 < 2 := Nat.mod_lt _ (by decide)
    have e : n % (8 / 3) = n % 2 := rfl
    rw [e]
    generalize n % 2 = r at *
    generalize (v1.c_str (3 + n / (8 / 3))).val = y1 at *
    generalize (v2.c_str (3 + n / (8 / 3))).val = y2 at *
    interval_cases r <;> omega
  · have hm := h (n / (8 / 5))
    have e : n % (8 / 5) = 0 := Nat.mod_one n
    rw [e]
    generalize (v1.c_str (3 + n / (8 / 5))).val = y1 at *
    generalize (v2.c_str (3 + n / (8 / 5))).val = y2 at *
    omega
  · have hm := h (n / (8 / 6))
    have e : n % (8 / 6) = 0 := Nat.mod_one n
    rw [e]
    generalize (v1.c_str (3 + n / (8 / 6))).val = y1 at *
    generalize (v2.c_str (3 + n / (8 / 6))).val = y2 at *
    omega

/-! ### The loop over the sub-chunk indices -/

theorem loop_append (db : DB) (x z : Int) (pre post : List Nat) (acc : List SectionDict) :
    processSubChunksLoop db x z (pre ++ post) acc =
      match processSubChunksLoop db x z pre acc with
      | .ok list => processSubChunksLoop db x z post list
      | .error e => .error e
      | .lengthError => .lengthError := by
  induction pre generalizing acc with
  | nil => rfl
  | cons i pre ih =>
    simp only [List.cons_append, processSubChunksLoop]
    split
    · split
      · exact ih _
      · rfl
      · rfl
    · exact ih _

/-- The loop gets through indices whose present records all decode. -/
theorem loop_ok (db : DB) (x z : Int) (pre : List Nat) (acc : List SectionDict)
    (h : ∀ j ∈ pre, (db.Get (SubChunkKey.slice x z j)).code = 0 →
      ∃ s, processSubChunk x z j (db.Get (SubChunkKey.slice x z j)).value = .ok s) :
    ∃ list, processSubChunksLoop db x z pre acc = .ok list := by
  induction pre generalizing acc with
  | nil => exact ⟨acc, rfl⟩
  | cons i pre ih =>
    have hrest : ∀ j ∈ pre, (db.Get (SubChunkKey.slice x z j)).code = 0 →
        ∃ s, processSubChunk x z j (db.Get (SubChunkKey.slice x z j)).value = .ok s :=
      fun j hj => h j (List.mem_cons_of_mem _ hj)
    simp only [processSubChunksLoop]
    by_cases hc : (db.Get (SubChunkKey.slice x z i)).code = 0
    · obtain ⟨s, hs⟩ := h i (List.mem_cons_self _ _) hc
      rw [if_pos hc, hs]
      exact ih _ hrest
    · rw [if_neg hc]
      exact ih _ hrest

theorem range_split (n i : Nat) (h : i < n) :
    ∃ post, List.range n = List.range i ++ i :: post := by
  have e : n = i + ((n - i - 1) + 1) := by omega
  refine ⟨(List.range (n - i - 1)).map fun j => i + (j + 1), ?_⟩
  conv => lhs; rw [e]
  rw [List.range_add, List.range_succ_eq_map, List.map_cons, List.map_map]
  rfl

/-- The call ends the way the loop body ends on the first present record that does not decode. -/
theorem processSubChunks_stops (db : DB) (x z : Int) (dict : PyDict) (i : Nat)
    (hi : i < SubChunkKey.MaxSubChunkCount)
    (hprev : ∀ j, j < i → (db.Get (SubChunkKey.slice x z j)).code = 0 →
      ∃ s, processSubChunk x z j (db.Get (SubChunkKey.slice x z j)).value = .ok s)
    (hc : (db.Get (SubChunkKey.slice x z i)).code = 0) :
    (∀ e, processSubChunk x z i (db.Get (SubChunkKey.slice x z i)).value = .error e →
        processSubChunks db x z dict = .error e)
      ∧ (processSubChunk x z i (db.Get (SubChunkKey.slice x z i)).value = .lengthError →
        processSubChunks db x z dict = .lengthError) := by
  obtain ⟨post, hpost⟩ := range_split SubChunkKey.MaxSubChunkCount i hi
  obtain ⟨list, hlist⟩ := loop_ok db x z (List.range i) []
    (fun j hj => hprev j (List.mem_range.mp hj))
  have hstep : processSubChunksLoop db x z (List.range SubChunkKey.MaxSubChunkCount) []
      = processSubChunksLoop db x z (i :: post) list := by
    rw [hpost, loop_append, hlist]
  have hbody : processSubChunksLoop db x z (i :: post) list
      = match processSubChunk x z i (db.Get (SubChunkKey.slice x z i)).value with
        | .ok sectionDict => processSubChunksLoop db x z post (list ++ [sectionDict])
        | .error e => .error e
        | .lengthError => .lengthError := by
    rw [processSubChunksLoop]
    exact if_pos hc
  constructor
  · intro e he
    unfold processSubChunks
    rw [hstep, hbody, he]
  · intro he
    unfold processSubChunks
    rw [hstep, hbody, he]

/-- Whatever the loop returns holds the sections it started with and the section of every
present record it went over. -/
theorem loop_mem (db : DB) (x z : Int) (idxs : List Nat) (acc list : List SectionDict)
    (h : processSubChunksLoop db x z idxs acc = .ok list) :
    (∀ a ∈ acc, a ∈ list)
      ∧ ∀ i ∈ idxs, (db.Get (SubChunkKey.slice x z i)).code = 0 →
          ∀ s, processSubChunk x z i (db.Get (SubChunkKey.slice x z i)).value = .ok s →
            s ∈ list := by
  induction idxs generalizing acc with
  | nil =>
    simp only [processSubChunksLoop] at h
    injection h with h
    subst h
    exact ⟨fun a ha => ha, fun i hi => absurd hi (List.not_mem_nil i)⟩
  | cons j idxs ih =>
    rw [processSubChunksLoop] at h
    by_cases hc : (db.Get (SubChunkKey.slice x z j)).code = 0
    · simp only [hc, if_true] at h
      cases hj : processSubChunk x z j (db.Get (SubChunkKey.slice x z j)).value with
      | ok sj =>
        rw [hj] at h
        obtain ⟨hacc, hrest⟩ := ih (acc ++ [sj]) h
        refine ⟨fun a ha => hacc a (List.mem_append_left _ ha), ?_⟩
        intro i hi hci s hs
        rcases List.mem_cons.mp hi with rfl | hi2
        · rw [hj] at hs
          injection hs with hs
          subst hs
          exact hacc _ (List.mem_append_right _ (List.mem_singleton_self _))
        · exact hrest i hi2 hci s hs
      | error e => rw [hj] at h; cases h
      | lengthError => rw [hj] at h; cases h
    · simp only [hc, if_false] at h
      obtain ⟨hacc, hrest⟩ := ih acc h
      refine ⟨hacc, ?_⟩
      intro i hi hci s hs
      rcases List.mem_cons.mp hi with rfl | hi2
      · exact absurd hci hc
      · exact hrest i hi2 hci s hs

/-- A successful call stores a `Sections` list that holds the section of every present
record. -/
theorem processSubChunks_mem (db : DB) (x z : Int) (dict d : PyDict)
    (h : processSubChunks db x z dict = .ok d) (i : Nat) (hi : i < SubChunkKey.MaxSubChunkCount)
    (hc : (db.Get (SubChunkKey.slice x z i)).code = 0) (s : SectionDict)
    (hs : processSubChunk x z i (db.Get (SubChunkKey.slice x z i)).value = .ok s) :
    ∃ list, d = PyDict_SetItemString dict "Sections" (.sections list) ∧ s ∈ list := by
  unfold processSubChunks at h
  cases hl : processSubChunksLoop db x z (List.range SubChunkKey.MaxSubChunkCount) [] with
  | ok list =>
    rw [hl] at h
    injection h with h
    exact ⟨list, h.symm, (loop_mem db x z _ [] list hl).2 i (List.mem_range.mpr hi) hc s hs⟩
  | error e => rw [hl] at h; cases h
  | lengthError => rw [hl] at h; cases h

theorem processData2D_of_ok (db : DB) (x z version : Int) (dict : PyDict)
    (hc : (db.Get (Data2DKey.slice x z)).code = 0) :
    processData2D db x z version dict =
      .ok (PyDict_SetItemString
        (PyDict_SetItemString dict "Biomes"
          (.str ((db.Get (Data2DKey.slice x z)).value.copy (2 * Data2D.ElementCount)
            Data2D.ElementCount)))
        "HeightMap"
        (.intTuple ((List.range Data2D.ElementCount).map fun i =>
          int16 ((db.Get (Data2DKey.slice x z)).value.c_str (2 * i))
            ((db.Get (Data2DKey.slice x z)).value.c_str (2 * i + 1))))) := by
  unfold processData2D
  simp only [hc, ne_eq, not_true_eq_false, if_false]

/-! ## Unpacking of the block array -/

/-- C1 (the code departs from the claim): on the version-8 record of width 3 whose 1640-byte
block array has only bit 6 of its first word set, `processSubChunk` succeeds and its third block
index is 0 (bits 0..2 of the second byte), while the word-packed layout puts 1 there (bits 6..8
of the first word). -/
theorem processSubChunk_width3_not_wordPacked :
    arrBit6.length = requiredBytes 3
      ∧ ∃ s, processSubChunk 0 0 0
            (StdString.mk (8 :: 1 :: 6 :: (arrBit6 ++ [0, 0, 0, 0])) fun _ => 0) = .ok s
          ∧ (s._blockdata.map Fin.val)[2]? = some 0
          ∧ (wordPacked 3 arrBit6)[2]? = some 1
          ∧ s._blockdata.map Fin.val ≠ wordPacked 3 arrBit6 := by
  have hlen : arrBit6.length = 1640 := by
    unfold arrBit6
    rw [List.length_cons, List.length_replicate]
  have hreq : requiredBytes 3 = 1640 := by decide
  obtain ⟨hv, hf⟩ := header_val 1 6 (arrBit6 ++ [0, 0, 0, 0]) (fun _ => 0)
  have hsz : (StdString.mk (8 :: 1 :: 6 :: (arrBit6 ++ [0, 0, 0, 0])) fun _ => 0).size
      = 1647 := by
    simp [StdString.size, hlen]
  obtain ⟨s, hs⟩ : ∃ s, processSubChunk 0 0 0
      (StdString.mk (8 :: 1 :: 6 :: (arrBit6 ++ [0, 0, 0, 0])) fun _ => 0) = .ok s :=
    ⟨_, processSubChunk_supported 0 0 0 3 (by decide) _ hv hf
      (by rw [hsz, hreq]) (by rw [hsz]; decide)⟩
  have hf3 : ((StdString.mk (8 :: 1 :: 6 :: (arrBit6 ++ [0, 0, 0, 0])) fun _ => 0).c_str 2).val
      = 2 * 3 := hf
  have hbd := (processSubChunk_blockdata 0 0 0 _ hv s hs).1
  rw [hf3, switch_block_id 3 (by decide)] at hbd
  have h2 : (wordPacked 3 arrBit6)[2]? = some 1 := by
    simp only [wordPacked, List.getElem?_map, List.getElem?_range (by decide : 2 < 4096)]
    rfl
  have h0 : (s._blockdata.map Fin.val)[2]? = some 0 := by
    rw [hbd]
    simp only [List.map_map, List.getElem?_map, List.getElem?_range (by decide : 2 < 4096)]
    simp only [Option.map_some', Function.comp, byte_idAt_val 3 (by decide), idAt]
    rw [c_str_body 8 1 6 arrBit6 [0, 0, 0, 0] (fun _ => 0) (2 / (8 / 3))
      (by rw [hlen]; decide)]
    rfl
  refine ⟨by rw [hlen, hreq], s, hs, h0, h2, ?_⟩
  intro h
  rw [h, h2] at h0
  cases h0

/-- C2: for the field value 8 and a 2048-byte block array, the stream unpacked through
`BlockData_8` is the word-packed sequence with 8 blocks per little-endian word; index `2k` is the
low nibble and index `2k+1` the high nibble of byte `k`; a first word `21 00 00 00` gives 1 and 2
as the first two indices; and when the record goes on with the 4-byte palette header (and is no
longer than `PTRDIFF_MAX`, as every string is) the section is produced with that stream as its
block data. -/
theorem processSubChunk_width4_wordPacked (x z : Int) (subChunkIndex : Nat)
    (storageGroupCount : Byte) (arr rest : List Byte) (beyond : Nat → Byte)
    (harr : arr.length = 2048) :
    (∀ size, (switchBitsPerTwoBlockIds 8
        (StdString.mk (8 :: storageGroupCount :: 8 :: (arr ++ rest)) beyond) 3
          size).block_id.map Fin.val = wordPacked 4 arr)
      ∧ (∀ size k (hk : k < arr.length),
          ((switchBitsPerTwoBlockIds 8
            (StdString.mk (8 :: storageGroupCount :: 8 :: (arr ++ rest)) beyond) 3
              size).block_id.map Fin.val)[2 * k]? = some (arr[k].val % 16)
          ∧ ((switchBitsPerTwoBlockIds 8
            (StdString.mk (8 :: storageGroupCount :: 8 :: (arr ++ rest)) beyond) 3
              size).block_id.map Fin.val)[2 * k + 1]? = some (arr[k].val / 16))
      ∧ (arr.take 4 = [0x21, 0, 0, 0] → ∀ size,
          ((switchBitsPerTwoBlockIds 8
            (StdString.mk (8 :: storageGroupCount :: 8 :: (arr ++ rest)) beyond) 3
              size).block_id.map Fin.val).take 2 = [1, 2])
      ∧ (4 ≤ rest.length → 3 + (arr ++ rest).length ≤ PTRDIFF_MAX →
          ∃ s, processSubChunk x z subChunkIndex
              (StdString.mk (8 :: storageGroupCount :: 8 :: (arr ++ rest)) beyond) = .ok s
            ∧ s._blockdata.map Fin.val = wordPacked 4 arr) := by
  have hstream := stream4_val storageGroupCount arr rest beyond harr
  refine ⟨hstream, ?_, ?_, ?_⟩
  · intro size k hk
    rw [hstream size]
    exact wordPacked4_nibbles arr k hk (by omega)
  · intro h21 size
    rw [hstream size]
    have h0 : arr[0]? = some 0x21 := by
      have := congrArg (fun l => l[0]?) h21
      simpa [List.getElem?_take] using this
    have hk : 0 < arr.length := by omega
    have hv : arr[0] = 0x21 := by
      rw [List.getElem?_eq_getElem hk] at h0
      exact Option.some.inj h0
    obtain ⟨ha, hb⟩ := wordPacked4_nibbles arr 0 hk (by decide)
    rw [hv] at ha hb
    apply List.ext_getElem?
    intro n
    rcases n with _ | _ | n
    · rw [List.getElem?_take_of_lt (by decide)]
      exact ha
    · rw [List.getElem?_take_of_lt (by decide)]
      exact hb
    · rw [List.getElem?_eq_none (by simp)]
      rfl
  · intro hrest hmax
    obtain ⟨hv, hf⟩ := header_val storageGroupCount 8 (arr ++ rest) beyond
    have hreq : requiredBytes 4 = 2048 := by decide
    have hsz : (StdString.mk (8 :: storageGroupCount :: 8 :: (arr ++ rest)) beyond).size
        = 3 + 2048 + rest.length := by
      simp only [StdString.size, List.length_cons, List.length_append, harr]
      omega
    rw [List.length_append, harr] at hmax
    obtain ⟨s, hs, _, _, hbd, _⟩ := processSubChunk_supported_section x z subChunkIndex 4
      (by decide) _ hv hf (by rw [hsz, hreq]; omega) (by rw [hsz]; omega)
    refine ⟨s, hs, ?_⟩
    rw [hbd]
    exact hstream _


theorem processSubChunk_width4_wordPacked_witness :
    arr21.length = 2048
      ∧ ((switchBitsPerTwoBlockIds 8
          (StdString.mk (8 :: 1 :: 8 :: (arr21 ++ [0, 0, 0, 0])) fun _ => 0) 3
            2048).block_id.map Fin.val).take 2 = [1, 2] :=
  ⟨arr21_length,
    (processSubChunk_width4_wordPacked 0 0 0 1 arr21 [0, 0, 0, 0] (fun _ => 0)
      arr21_length).2.2.1 rfl 2048⟩

/-- C3: for a version-8 record whose width field is `2 * b` with `b` in {3, 4, 5, 6}, the
unpacking loop writes exactly 4096 block indices, each at most `2 ^ b - 1`; a section that is
produced carries exactly these as its block data, with `b` as its bits per block; and a section
is produced whenever the record holds the block array and the 4-byte palette header (and is no
longer than `PTRDIFF_MAX`, as every string is). -/
theorem unpack_count_and_range (x z : Int) (subChunkIndex b : Nat) (hb : Supported b)
    (storageGroupCount field : Byte) (hf : field.val = 2 * b) (body : List Byte)
    (beyond : Nat → Byte) :
    (∀ raw size,
        (switchBitsPerTwoBlockIds field.val
          (StdString.mk (8 :: storageGroupCount :: field :: body) beyond) raw
            size).block_id.length = 4096
        ∧ ∀ id ∈ (switchBitsPerTwoBlockIds field.val
          (StdString.mk (8 :: storageGroupCount :: field :: body) beyond) raw size).block_id,
            id.val ≤ 2 ^ b - 1)
      ∧ (∀ s, processSubChunk x z subChunkIndex
            (StdString.mk (8 :: storageGroupCount :: field :: body) beyond) = .ok s →
          s._blockdata.length = 4096 ∧ (∀ id ∈ s._blockdata, id.val ≤ 2 ^ b - 1)
            ∧ s._bitsPerBlock = b)
      ∧ (requiredBytes b + 4 ≤ body.length → 3 + body.length ≤ PTRDIFF_MAX →
          ∃ s, processSubChunk x z subChunkIndex
            (StdString.mk (8 :: storageGroupCount :: field :: body) beyond) = .ok s) := by
  obtain ⟨hv, hf2⟩ := header_val storageGroupCount field body beyond
  rw [hf] at hf2 ⊢
  refine ⟨fun raw size => ⟨stream_length b hb _ raw size, stream_range b hb _ raw size⟩, ?_, ?_⟩
  · intro s hs
    obtain ⟨h1, h2, _⟩ := processSubChunk_blockdata x z subChunkIndex _ hv s hs
    rw [hf2] at h1 h2
    rw [h1, h2]
    refine ⟨stream_length b hb _ _ _, stream_range b hb _ _ _, ?_⟩
    rw [Nat.shiftRight_eq_div_pow]
    omega
  · intro hlen hmax
    have hsz : (StdString.mk (8 :: storageGroupCount :: field :: body) beyond).size
        = 3 + body.length := by
      simp only [StdString.size, List.length_cons]
      omega
    obtain ⟨s, hs, _⟩ := processSubChunk_supported_section x z subChunkIndex b hb _ hv hf2
      (by rw [hsz]; omega) (by rw [hsz]; omega)
    exact ⟨s, hs⟩

theorem unpack_count_and_range_witness :
    Supported 3 ∧ (6 : Byte).val = 2 * 3
      ∧ (switchBitsPerTwoBlockIds (6 : Byte).val
          (StdString.mk (8 :: 1 :: 6 :: (arrBit6 ++ [0, 0, 0, 0])) fun _ => 0) 3
            1644).block_id.length = 4096 :=
  ⟨by decide, rfl,
    ((unpack_count_and_range 0 0 0 3 (by decide) 1 6 rfl (arrBit6 ++ [0, 0, 0, 0])
      (fun _ => 0)).1 3 1644).1⟩

/-- C4: for `b` in {3, 4, 5, 6} the required byte length `4 * ceil(4096 / floor(32 / b))` is
1640, 2048, 2732 and 3280, and for the field value `2 * b` the switch advances the read cursor
by exactly that many bytes and takes as many off the remaining size (modulo `2 ^ 64`, and
exactly when that many bytes remain). -/
theorem blockArray_advance (b : Nat) (hb : Supported b) (value : StdString) (raw size : Nat) :
    [requiredBytes 3, requiredBytes 4, requiredBytes 5, requiredBytes 6]
        = [1640, 2048, 2732, 3280]
      ∧ requiredBytes b = 4 * ((4096 + 32 / b - 1) / (32 / b))
      ∧ 4096 ≤ requiredBytes b / 4 * (32 / b)
      ∧ (requiredBytes b / 4 - 1) * (32 / b) < 4096
      ∧ (switchBitsPerTwoBlockIds (2 * b) value raw size).raw = raw + requiredBytes b
      ∧ (switchBitsPerTwoBlockIds (2 * b) value raw size).size
          = subSize size (requiredBytes b)
      ∧ (requiredBytes b ≤ size → size < 2 ^ 64 →
          (switchBitsPerTwoBlockIds (2 * b) value raw size).size = size - requiredBytes b) := by
  refine ⟨by decide, rfl, ?_, ?_, switch_raw b hb value raw size,
    switch_size b hb value raw size, ?_⟩
  · rcases hb with rfl | rfl | rfl | rfl <;> decide
  · rcases hb with rfl | rfl | rfl | rfl <;> decide
  · intro h1 h2
    rw [switch_size b hb]
    unfold subSize
    omega

theorem blockArray_advance_witness :
    Supported 5
      ∧ (switchBitsPerTwoBlockIds (2 * 5) (StdString.mk [] fun _ => 0) 3 4000).raw = 2735
      ∧ (switchBitsPerTwoBlockIds (2 * 5) (StdString.mk [] fun _ => 0) 3 4000).size = 1268 :=
  ⟨by decide,
    (blockArray_advance 5 (by decide) (StdString.mk [] fun _ => 0) 3 4000).2.2.2.2.1,
    (blockArray_advance 5 (by decide) (StdString.mk [] fun _ => 0) 3 4000).2.2.2.2.2.2
      (by decide) (by decide)⟩

/-- C5: for `b` in {3, 5, 6}, two version-8 records that differ only in their block arrays, the
arrays having the required length and agreeing on the low `floor(32 / b) * b` bits of every
little-endian 32-bit word, unpack to the same stream of block indices; when the records go on
with the 4-byte palette header (and are no longer than `PTRDIFF_MAX`) both sections are produced,
with the same 4096 block indices. -/
theorem padding_bits_ignored (x z : Int) (subChunkIndex b : Nat) (hb : b = 3 ∨ b = 5 ∨ b = 6)
    (storageGroupCount field : Byte) (hf : field.val = 2 * b) (arr1 arr2 rest : List Byte)
    (beyond : Nat → Byte) (h1 : arr1.length = requiredBytes b)
    (h2 : arr2.length = requiredBytes b)
    (hw : ∀ k, k < requiredBytes b / 4 →
      wordLE arr1 k % 2 ^ (blocksPerWord b * b) = wordLE arr2 k % 2 ^ (blocksPerWord b * b)) :
    (∀ size,
        (switchBitsPerTwoBlockIds field.val
          (StdString.mk (8 :: storageGroupCount :: field :: (arr1 ++ rest)) beyond) 3
            size).block_id
        = (switchBitsPerTwoBlockIds field.val
          (StdString.mk (8 :: storageGroupCount :: field :: (arr2 ++ rest)) beyond) 3
            size).block_id)
      ∧ (4 ≤ rest.length → 3 + requiredBytes b + rest.length ≤ PTRDIFF_MAX →
          ∃ s1 s2,
            processSubChunk x z subChunkIndex
              (StdString.mk (8 :: storageGroupCount :: field :: (arr1 ++ rest)) beyond) = .ok s1
            ∧ processSubChunk x z subChunkIndex
              (StdString.mk (8 :: storageGroupCount :: field :: (arr2 ++ rest)) beyond) = .ok s2
            ∧ s1._blockdata = s2._blockdata ∧ s1._blockdata.length = 4096) := by
  have hsup : Supported b := by
    rcases hb with rfl | rfl | rfl <;> decide
  have hL := requiredBytes_le b hsup
  have hstream : ∀ size,
      (switchBitsPerTwoBlockIds (2 * b)
        (StdString.mk (8 :: storageGroupCount :: field :: (arr1 ++ rest)) beyond) 3
          size).block_id
      = (switchBitsPerTwoBlockIds (2 * b)
        (StdString.mk (8 :: storageGroupCount :: field :: (arr2 ++ rest)) beyond) 3
          size).block_id := by
    intro size
    rw [switch_block_id b hsup, switch_block_id b hsup]
    apply List.map_congr_left
    intro n _
    rw [idAt_agree b hb _ _
      (c_str_agree b hb 8 storageGroupCount field arr1 arr2 rest beyond h1 h2 hw) n]
  rw [hf]
  refine ⟨hstream, ?_⟩
  intro hrest hmax
  obtain ⟨hv1, hf1⟩ := header_val storageGroupCount field (arr1 ++ rest) beyond
  obtain ⟨hv2, hf2⟩ := header_val storageGroupCount field (arr2 ++ rest) beyond
  rw [hf] at hf1 hf2
  have hsz1 : (StdString.mk (8 :: storageGroupCount :: field :: (arr1 ++ rest)) beyond).size
      = 3 + requiredBytes b + rest.length := by
    simp only [StdString.size, List.length_cons, List.length_append, h1]
    omega
  have hsz2 : (StdString.mk (8 :: storageGroupCount :: field :: (arr2 ++ rest)) beyond).size
      = 3 + requiredBytes b + rest.length := by
    simp only [StdString.size, List.length_cons, List.length_append, h2]
    omega
  obtain ⟨s1, hs1, _, _, hbd1, _⟩ := processSubChunk_supported_section x z subChunkIndex b
    hsup _ hv1 hf1 (by rw [hsz1]; omega) (by rw [hsz1]; omega)
  obtain ⟨s2, hs2, _, _, hbd2, _⟩ := processSubChunk_supported_section x z subChunkIndex b
    hsup _ hv2 hf2 (by rw [hsz2]; omega) (by rw [hsz2]; omega)
  refine ⟨s1, s2, hs1, hs2, ?_, ?_⟩
  · rw [hbd1, hbd2, hsz1, hsz2]
    exact hstream _
  · rw [hbd1]
    exact stream_length b hsup _ _ _

theorem padding_bits_ignored_witness :
    (3 = 3 ∨ 3 = 5 ∨ 3 = 6) ∧ (6 : Byte).val = 2 * 3
      ∧ (arrTop 0).length = requiredBytes 3 ∧ (arrTop 0xC0).length = requiredBytes 3
      ∧ (∀ k, k < requiredBytes 3 / 4 →
          wordLE (arrTop 0) k % 2 ^ (blocksPerWord 3 * 3)
            = wordLE (arrTop 0xC0) k % 2 ^ (blocksPerWord 3 * 3))
      ∧ (switchBitsPerTwoBlockIds (6 : Byte).val
          (StdString.mk (8 :: 1 :: 6 :: (arrTop 0 ++ [0, 0, 0, 0])) fun _ => 0) 3 1644).block_id
        = (switchBitsPerTwoBlockIds (6 : Byte).val
          (StdString.mk (8 :: 1 :: 6 :: (arrTop 0xC0 ++ [0, 0, 0, 0])) fun _ => 0) 3
            1644).block_id :=
  ⟨Or.inl rfl, rfl, arrTop_length 0, arrTop_length 0xC0, fun k _ => arrTop_words k,
    (padding_bits_ignored 0 0 0 3 (Or.inl rfl) 1 6 rfl (arrTop 0) (arrTop 0xC0) [0, 0, 0, 0]
      (fun _ => 0) (arrTop_length 0) (arrTop_length 0xC0) (fun k _ => arrTop_words k)).1 1644⟩

/-! ## Version and width dispatch, truncated records -/

/-- C6: a present record whose version byte is not 8 makes the loop body end with the
unexpected-version error carrying the column and that byte; the outcome is the same whatever
follows the version byte (nothing behind it is read); and `processSubChunks` ends with this
error when the records stored under the lower indices decode. -/
theorem unsupported_version (x z : Int) (subChunkIndex : Nat) (version : Byte)
    (hver : version.val ≠ 8) (body : List Byte) (beyond : Nat → Byte) :
    processSubChunk x z subChunkIndex (StdString.mk (version :: body) beyond)
        = .error (.chunkVersion x z version.val)
      ∧ (∀ body2 beyond2,
          processSubChunk x z subChunkIndex (StdString.mk (version :: body2) beyond2)
            = processSubChunk x z subChunkIndex (StdString.mk (version :: body) beyond))
      ∧ (∀ (db : DB) (dict : PyDict), subChunkIndex < SubChunkKey.MaxSubChunkCount →
          (db.Get (SubChunkKey.slice x z subChunkIndex)).code = 0 →
          (db.Get (SubChunkKey.slice x z subChunkIndex)).value
            = StdString.mk (version :: body) beyond →
          (∀ j, j < subChunkIndex → (db.Get (SubChunkKey.slice x z j)).code = 0 →
            ∃ s, processSubChunk x z j (db.Get (SubChunkKey.slice x z j)).value = .ok s) →
          processSubChunks db x z dict = .error (.chunkVersion x z version.val)) := by
  have key : ∀ body2 beyond2,
      processSubChunk x z subChunkIndex (StdString.mk (version :: body2) beyond2)
        = .error (.chunkVersion x z version.val) := by
    intro body2 beyond2
    have h0 : ((StdString.mk (version :: body2) beyond2).c_str 0) = version := by
      simp [StdString.c_str]
    unfold processSubChunk
    simp only [h0]
    rw [if_neg hver]
  refine ⟨key body beyond, fun body2 beyond2 => ?_, ?_⟩
  · rw [key body2 beyond2, key body beyond]
  · intro db dict hi hc hval hprev
    apply (processSubChunks_stops db x z dict subChunkIndex hi hprev hc).1
    rw [hval]
    exact key body beyond

theorem unsupported_version_witness :
    (7 : Byte).val ≠ 8
      ∧ processSubChunk 0 0 2 (StdString.mk (7 :: [1, 6, 0]) fun _ => 0)
        = .error (.chunkVersion 0 0 7) :=
  ⟨by decide, (unsupported_version 0 0 2 7 (by decide) [1, 6, 0] (fun _ => 0)).1⟩

/-- C7 (as the claim states it, refuted): the version-8 record `08 01 07 04 00 00 00 09 09`,
whose width field is 7, stored under index 5 does not make `processSubChunks` fail: the call
succeeds and its `Sections` list holds a section for the record, with no block data. -/
theorem unsupported_width_counterexample :
    processSubChunks (dbSingle (SubChunkKey.slice 0 0 5) [8, 1, 7, 4, 0, 0, 0, 9, 9]) 0 0 []
      = .ok [("Sections", .sections [⟨[9, 9], 4, [], [], 3, 5⟩])] := by
  decide

/-- C7 (amended): for a version-8 record whose width field is none of 6, 8, 10, 12 the switch
takes its default branch, which unpacks no block index, copies no block array and leaves the read
cursor where it is; and the loop body does not end with an error on such a record. -/
theorem unsupported_width_no_error (x z : Int) (subChunkIndex : Nat)
    (storageGroupCount field : Byte)
    (hfield : field.val ≠ 6 ∧ field.val ≠ 8 ∧ field.val ≠ 10 ∧ field.val ≠ 12)
    (body : List Byte) (beyond : Nat → Byte) :
    (∀ raw size,
        switchBitsPerTwoBlockIds field.val
          (StdString.mk (8 :: storageGroupCount :: field :: body) beyond) raw size
          = ⟨[], [], raw, size⟩)
      ∧ ∀ e, processSubChunk x z subChunkIndex
          (StdString.mk (8 :: storageGroupCount :: field :: body) beyond) ≠ .error e := by
  obtain ⟨h6, h8, h10, h12⟩ := hfield
  obtain ⟨hv, _⟩ := header_val storageGroupCount field body beyond
  constructor
  · intro raw size
    unfold switchBitsPerTwoBlockIds
    rw [if_neg h6, if_neg h8, if_neg h10, if_neg h12]
  · intro e he
    rw [processSubChunk_v8 x z subChunkIndex _ hv] at he
    split at he <;> cases he

theorem unsupported_width_no_error_witness :
    ((7 : Byte).val ≠ 6 ∧ (7 : Byte).val ≠ 8 ∧ (7 : Byte).val ≠ 10 ∧ (7 : Byte).val ≠ 12)
      ∧ switchBitsPerTwoBlockIds (7 : Byte).val
          (StdString.mk (8 :: 1 :: 7 :: [4, 0, 0, 0, 9, 9]) fun _ => 0) 3 6
          = ⟨[], [], 3, 6⟩ :=
  ⟨by decide,
    (unsupported_width_no_error 0 0 5 1 7 (by decide) [4, 0, 0, 0, 9, 9] (fun _ => 0)).1 3 6⟩

/-- C8 (as the claim states it, refuted): the version-8 record `08 01 08`, of width 4 and with
no block array behind its header, stored under index 0 does not make `processSubChunks` end with
an error set for the caller: the call ends in the exception of the string constructor. -/
theorem truncated_record_counterexample :
    processSubChunks (dbSingle (SubChunkKey.slice 0 0 0) [8, 1, 8]) 0 0 [] = .lengthError := by
  decide

/-- C8 (amended): for a version-8 record of a supported width that holds fewer bytes behind its
3 header bytes than the block array and the 4-byte palette header take, no length is checked and
no error is set: the remaining size wraps around modulo `2 ^ 64`, the palette string of that size
cannot be built, and no section is produced; `processSubChunks` ends the same way when the
records stored under the lower indices decode. -/
theorem truncated_record_outcome (x z : Int) (subChunkIndex b : Nat) (hb : Supported b)
    (storageGroupCount field : Byte) (hf : field.val = 2 * b) (body : List Byte)
    (beyond : Nat → Byte) (hlen : body.length < requiredBytes b + 4) :
    processSubChunk x z subChunkIndex
        (StdString.mk (8 :: storageGroupCount :: field :: body) beyond) = .lengthError
      ∧ (∀ (db : DB) (dict : PyDict), subChunkIndex < SubChunkKey.MaxSubChunkCount →
          (db.Get (SubChunkKey.slice x z subChunkIndex)).code = 0 →
          (db.Get (SubChunkKey.slice x z subChunkIndex)).value
            = StdString.mk (8 :: storageGroupCount :: field :: body) beyond →
          (∀ j, j < subChunkIndex → (db.Get (SubChunkKey.slice x z j)).code = 0 →
            ∃ s, processSubChunk x z j (db.Get (SubChunkKey.slice x z j)).value = .ok s) →
          processSubChunks db x z dict = .lengthError) := by
  obtain ⟨hv, hf2⟩ := header_val storageGroupCount field body beyond
  rw [hf] at hf2
  have hsz : (StdString.mk (8 :: storageGroupCount :: field :: body) beyond).size
      = 3 + body.length := by
    simp only [StdString.size, List.length_cons]
    omega
  have key := processSubChunk_truncated x z subChunkIndex b hb _ hv hf2 (by rw [hsz]; omega)
  refine ⟨key, ?_⟩
  intro db dict hi hc hval hprev
  apply (processSubChunks_stops db x z dict subChunkIndex hi hprev hc).2
  rw [hval]
  exact key

theorem truncated_record_outcome_witness :
    Supported 4 ∧ (8 : Byte).val = 2 * 4
      ∧ ([0x21, 0, 0, 0] : List Byte).length < requiredBytes 4 + 4
      ∧ processSubChunk 0 0 0 (StdString.mk (8 :: 1 :: 8 :: [0x21, 0, 0, 0]) fun _ => 0)
        = .lengthError :=
  ⟨by decide, rfl, by decide,
    (truncated_record_outcome 0 0 0 4 (by decide) 1 8 rfl [0x21, 0, 0, 0] (fun _ => 0)
      (by decide)).1⟩

/-! ## The palette blob -/

/-- C9: for a version-8 record of a supported width `b` and of length at least `3 + L + 4` (and
at most `PTRDIFF_MAX`, as for every string), with `L` the required block-array length, the loop
body produces a section whose declared palette
length is the byte at offset `3 + L` and whose palette payload is the record from offset
`3 + L + 4` to its end, unchanged; the section carries the index it was stored under, and every
successful `processSubChunks` call over a store holding the record has it in `Sections`. -/
theorem palette_blob (x z : Int) (subChunkIndex b : Nat) (hb : Supported b)
    (storageGroupCount field : Byte) (hf : field.val = 2 * b) (body record : List Byte)
    (beyond : Nat → Byte) (hrec : record = 8 :: storageGroupCount :: field :: body)
    (hlen : 3 + requiredBytes b + 4 ≤ record.length) (hmax : record.length ≤ PTRDIFF_MAX) :
    ∃ s, processSubChunk x z subChunkIndex (StdString.mk record beyond) = .ok s
      ∧ record[3 + requiredBytes b]?.map Fin.val = some s._blockinfo_length
      ∧ s._blockinfo = record.drop (3 + requiredBytes b + 4)
      ∧ s._blockinfo.length = record.length - (3 + requiredBytes b + 4)
      ∧ s.Y = subChunkIndex
      ∧ ∀ (db : DB) (dict d : PyDict), subChunkIndex < SubChunkKey.MaxSubChunkCount →
          (db.Get (SubChunkKey.slice x z subChunkIndex)).code = 0 →
          (db.Get (SubChunkKey.slice x z subChunkIndex)).value = StdString.mk record beyond →
          processSubChunks db x z dict = .ok d →
          ∃ list, d = PyDict_SetItemString dict "Sections" (.sections list) ∧ s ∈ list := by
  subst hrec
  obtain ⟨hv, hf2⟩ := header_val storageGroupCount field body beyond
  rw [hf] at hf2
  obtain ⟨s, hs, hinfo, hilen, _, _, _, hY⟩ := processSubChunk_supported_section x z
    subChunkIndex b hb (StdString.mk (8 :: storageGroupCount :: field :: body) beyond) hv hf2
    (by show 7 + requiredBytes b ≤ (8 :: storageGroupCount :: field :: body).length; omega)
    hmax
  have h7 : 3 + requiredBytes b + 4 = 7 + requiredBytes b := by omega
  have hlt : 3 + requiredBytes b < (8 :: storageGroupCount :: field :: body).length := by omega
  refine ⟨s, hs, ?_, ?_, ?_, hY, ?_⟩
  · rw [hilen, c_str_of_lt _ _ hlt, List.getElem?_eq_getElem hlt]
    rfl
  · rw [hinfo, h7]
  · rw [hinfo, List.length_drop, h7]
  · intro db dict d hi hc hval hd
    exact processSubChunks_mem db x z dict d hd subChunkIndex hi hc s (by rw [hval]; exact hs)

theorem palette_blob_witness :
    Supported 4 ∧ (8 : Byte).val = 2 * 4
      ∧ 3 + requiredBytes 4 + 4 ≤ (8 :: 1 :: 8 :: (arr21 ++ [5, 0, 0, 0, 7, 7])).length
      ∧ (8 :: 1 :: 8 :: (arr21 ++ [5, 0, 0, 0, 7, 7])).length ≤ PTRDIFF_MAX
      ∧ ∃ s, processSubChunk 0 0 3
            (StdString.mk (8 :: 1 :: 8 :: (arr21 ++ [5, 0, 0, 0, 7, 7])) fun _ => 0) = .ok s
          ∧ s._blockinfo = (8 :: 1 :: 8 :: (arr21 ++ [5, 0, 0, 0, 7, 7])).drop
              (3 + requiredBytes 4 + 4) :=
  have h1 : (8 :: 1 :: 8 :: (arr21 ++ [5, 0, 0, 0, 7, 7]) : List Byte).length = 2057 := by
    simp only [List.length_cons, List.length_append, arr21_length, List.length_nil]
  have h2 : 3 + requiredBytes 4 + 4 ≤ (8 :: 1 :: 8 :: (arr21 ++ [5, 0, 0, 0, 7, 7])).length := by
    rw [h1]; decide
  have h3 : (8 :: 1 :: 8 :: (arr21 ++ [5, 0, 0, 0, 7, 7])).length ≤ PTRDIFF_MAX := by
    rw [h1]; decide
  ⟨by decide, rfl, h2, h3,
    (palette_blob 0 0 3 4 (by decide) 1 8 rfl (arr21 ++ [5, 0, 0, 0, 7, 7]) _ (fun _ => 0) rfl
      h2 h3).imp fun _ h => ⟨h.1, h.2.2.1⟩⟩

/-! ## The surface record -/

set_option maxRecDepth 100000 in
/-- C10 (as the claim states it, refuted): for the 3-byte surface payload `01 02 03` stored for
column (0, 0), with zero bytes in memory behind it, `processData2D` does not fail: it returns
success and sets 256 biome bytes and 256 heights, the first two heights being 513 and 3. -/
theorem short_surface_counterexample :
    ([1, 2, 3] : List Byte).length < 768
      ∧ processData2D (dbSingle (Data2DKey.slice 0 0) [1, 2, 3]) 0 0 0 []
        = .ok [("Biomes", .str (List.replicate 256 0)),
            ("HeightMap", .intTuple (513 :: 3 :: List.replicate 254 0))] := by
  decide

/-- C10 (amended): `processData2D` checks no length.  It fails exactly when the store lookup
reports a status other than `kOk`, with the lookup error; for every payload the store returns
with `kOk`, whatever its length, it returns success and sets a `Biomes` string of 256 bytes and a
`HeightMap` tuple of 256 entries. -/
theorem processData2D_no_length_check (db : DB) (x z version : Int) (dict : PyDict) :
    ((db.Get (Data2DKey.slice x z)).code ≠ 0 →
        processData2D db x z version dict
          = .error (.data2D x z (db.Get (Data2DKey.slice x z)).code))
      ∧ ((db.Get (Data2DKey.slice x z)).code = 0 →
          ∃ biomes heightmap, biomes.length = 256 ∧ heightmap.length = 256
            ∧ processData2D db x z version dict
              = .ok (PyDict_SetItemString (PyDict_SetItemString dict "Biomes" (.str biomes))
                  "HeightMap" (.intTuple heightmap))) := by
  constructor
  · intro hc
    unfold processData2D
    simp only [hc, ne_eq, not_false_eq_true, if_true]
  · intro hc
    refine ⟨_, _, ?_, ?_, processData2D_of_ok db x z version dict hc⟩
    · simp only [StdString.copy, List.length_map, List.length_range, Data2D.ElementCount]
    · simp only [List.length_map, List.length_range, Data2D.ElementCount]

/-! ## Further auxiliary facts -/

theorem byte_val (n : Nat) : (byte n).val = n % 256 := rfl

/-- Reading back the bytes written for an `int32_t`. -/
theorem int32_int32Bytes (x : Int) (hlo : -2 ^ 31 ≤ x) (hhi : x < 2 ^ 31) :
    int32 (byte (x % 2 ^ 32).toNat) (byte ((x % 2 ^ 32).toNat / 2 ^ 8))
      (byte ((x % 2 ^ 32).toNat / 2 ^ 16)) (byte ((x % 2 ^ 32).toNat / 2 ^ 24)) = x := by
  unfold int32
  simp only [byte_val]
  have hu : ((x % 2 ^ 32).toNat : Int) = x % 2 ^ 32 := Int.toNat_of_nonneg (Int.emod_nonneg _ (by decide))
  generalize (x % 2 ^ 32).toNat = u at *
  have hu2 : (u : Int) < 2 ^ 32 := by rw [hu]; exact Int.emod_lt_of_pos _ (by decide)
  have key : u % 256 + 2 ^ 8 * (u / 2 ^ 8 % 256) + 2 ^ 16 * (u / 2 ^ 16 % 256)
      + 2 ^ 24 * (u / 2 ^ 24 % 256) = u := by omega
  rw [key]
  split <;> omega

theorem int32_range (b0 b1 b2 b3 : Byte) :
    -2 ^ 31 ≤ int32 b0 b1 b2 b3 ∧ int32 b0 b1 b2 b3 < 2 ^ 31 := by
  unfold int32
  have h0 := b0.isLt
  have h1 := b1.isLt
  have h2 := b2.isLt
  have h3 := b3.isLt
  simp only []
  split <;> constructor <;> omega

theorem int32Bytes_int32 (b0 b1 b2 b3 : Byte) :
    int32Bytes (int32 b0 b1 b2 b3) = [b0, b1, b2, b3] := by
  have h0 := b0.isLt
  have h1 := b1.isLt
  have h2 := b2.isLt
  have h3 := b3.isLt
  have hu : ((int32 b0 b1 b2 b3) % 2 ^ 32).toNat
      = b0.val + 2 ^ 8 * b1.val + 2 ^ 16 * b2.val + 2 ^ 24 * b3.val := by
    unfold int32
    simp only []
    split <;> omega
  unfold int32Bytes
  simp only [hu]
  simp only [List.cons.injEq, and_true]
  refine ⟨?_, ?_, ?_, ?_⟩ <;> apply Fin.ext <;> simp only [byte_val] <;> omega

theorem digitChar_spec (k : Nat) (hk : k < 10) :
    digitVal (Nat.digitChar k) = k ∧ Nat.digitChar k ≠ ',' ∧ Nat.digitChar k ≠ '-' := by
  interval_cases k <;> decide

theorem toDigitsCore_spec (fuel : Nat) :
    ∀ n ds, n < fuel → ∃ pre, Nat.toDigitsCore 10 fuel n ds = pre ++ ds
      ∧ parseDecimal pre = n ∧ ∀ c ∈ pre, c ≠ ',' ∧ c ≠ '-' := by
  induction fuel with
  | zero => intro n ds h; omega
  | succ fuel ih =>
    intro n ds h
    obtain ⟨hd, hc⟩ := digitChar_spec (n % 10) (Nat.mod_lt _ (by decide))
    rw [Nat.toDigitsCore]
    by_cases h0 : n / 10 = 0
    · simp only [h0, if_true]
      refine ⟨[Nat.digitChar (n % 10)], rfl, ?_, ?_⟩
      · simp only [parseDecimal, List.foldl_cons, List.foldl_nil, hd]
        omega
      · intro c hmem
        rw [List.mem_singleton] at hmem
        rw [hmem]
        exact hc
    · simp only [h0, if_false]
      obtain ⟨pre, hpre, hval, hall⟩ := ih (n / 10) (Nat.digitChar (n % 10) :: ds) (by omega)
      refine ⟨pre ++ [Nat.digitChar (n % 10)], ?_, ?_, ?_⟩
      · rw [hpre, List.append_assoc]
        rfl
      · unfold parseDecimal at hval ⊢
        rw [List.foldl_append, hval]
        simp only [List.foldl_cons, List.foldl_nil, hd]
        omega
      · intro c hmem
        rcases List.mem_append.mp hmem with h1 | h1
        · exact hall c h1
        · rw [List.mem_singleton] at h1
          rw [h1]
          exact hc

theorem toDigits_spec (n : Nat) :
    parseDecimal (Nat.toDigits 10 n) = n ∧ ∀ c ∈ Nat.toDigits 10 n, c ≠ ',' ∧ c ≠ '-' := by
  obtain ⟨pre, hpre, hval, hall⟩ := toDigitsCore_spec (n + 1) n [] (Nat.lt_succ_self n)
  unfold Nat.toDigits
  rw [hpre, List.append_nil]
  exact ⟨hval, hall⟩

theorem toDigits_injective (n m : Nat) (h : Nat.toDigits 10 n = Nat.toDigits 10 m) : n = m := by
  rw [← (toDigits_spec n).1, ← (toDigits_spec m).1, h]

theorem decimal_no_comma (x : Int) : ∀ c ∈ decimal x, c ≠ ',' := by
  intro c hc
  cases x with
  | ofNat n => exact ((toDigits_spec n).2 c hc).1
  | negSucc n =>
    rcases List.mem_cons.mp hc with h | h
    · rw [h]; decide
    · exact ((toDigits_spec (n + 1)).2 c h).1

theorem decimal_injective (x y : Int) (h : decimal x = decimal y) : x = y := by
  cases x with
  | ofNat n =>
    cases y with
    | ofNat m => rw [toDigits_injective n m h]
    | negSucc m =>
      exfalso
      have hmem : '-' ∈ Nat.toDigits 10 n := by
        have : decimal (Int.ofNat n) = Nat.toDigits 10 n := rfl
        rw [← this, h]
        exact List.mem_cons_self _ _
      exact ((toDigits_spec n).2 _ hmem).2 rfl
  | negSucc n =>
    cases y with
    | ofNat m =>
      exfalso
      have hmem : '-' ∈ Nat.toDigits 10 m := by
        have : decimal (Int.ofNat m) = Nat.toDigits 10 m := rfl
        rw [← this, ← h]
        exact List.mem_cons_self _ _
      exact ((toDigits_spec m).2 _ hmem).2 rfl
    | negSucc m =>
      have h2 : Nat.toDigits 10 (n + 1) = Nat.toDigits 10 (m + 1) := (List.cons.inj h).2
      have := toDigits_injective _ _ h2
      have e : n = m := by omega
      rw [e]

theorem append_comma_injective (a a2 b b2 : List Char) (ha : ∀ c ∈ a, c ≠ ',')
    (ha2 : ∀ c ∈ a2, c ≠ ',') (h : a ++ ',' :: b = a2 ++ ',' :: b2) : a = a2 ∧ b = b2 := by
  induction a generalizing a2 with
  | nil =>
    cases a2 with
    | nil => exact ⟨rfl, (List.cons.inj h).2⟩
    | cons c t =>
      exfalso
      have hc : ',' = c := (List.cons.inj h).1
      exact ha2 c (List.mem_cons_self _ _) hc.symm
  | cons c t ih =>
    cases a2 with
    | nil =>
      exfalso
      have hc : c = ',' := (List.cons.inj h).1
      exact ha c (List.mem_cons_self _ _) hc
    | cons c2 t2 =>
      obtain ⟨hc, ht⟩ := List.cons.inj h
      obtain ⟨e1, e2⟩ := ih t2 (fun d hd => ha d (List.mem_cons_of_mem _ hd))
        (fun d hd => ha2 d (List.mem_cons_of_mem _ hd)) ht
      exact ⟨by rw [hc, e1], e2⟩

/-- The key string determines the column. -/
theorem chunkKeyString_injective (x z x2 z2 : Int)
    (h : chunkKeyString x z = chunkKeyString x2 z2) : x = x2 ∧ z = z2 := by
  unfold chunkKeyString at h
  have h2 : decimal x ++ ',' :: decimal z = decimal x2 ++ ',' :: decimal z2 := by
    injection h
  obtain ⟨e1, e2⟩ := append_comma_injective _ _ _ _ (decimal_no_comma x) (decimal_no_comma x2) h2
  exact ⟨decimal_injective _ _ e1, decimal_injective _ _ e2⟩

theorem c_str_getD (s : StdString) (i : Nat) (h : i < s.bytes.length) :
    s.c_str i = s.bytes.getD i 0 := by
  rw [c_str_of_lt s i h, List.getD_eq_getElem _ _ h]
  rfl

theorem getD_take (p : List Byte) (n i : Nat) (h : i < n) :
    (p.take n).getD i 0 = p.getD i 0 := by
  simp only [List.getD_eq_getElem?_getD, List.getElem?_take_of_lt h]

/-- The two lists `processData2D` builds, in terms of the payload. -/
theorem data2D_lists (p : List Byte) (beyond : Nat → Byte) (hlen : 768 ≤ p.length) :
    ((List.range Data2D.ElementCount).map fun i =>
        int16 ((StdString.mk p beyond).c_str (2 * i)) ((StdString.mk p beyond).c_str (2 * i + 1)))
      = (List.range 256).map (fun i =>
          int16 ((p.take 768).getD (2 * i) 0) ((p.take 768).getD (2 * i + 1) 0))
    ∧ (StdString.mk p beyond).copy (2 * Data2D.ElementCount) Data2D.ElementCount
      = (List.range 256).map (fun i => (p.take 768).getD (512 + i) 0) := by
  constructor
  · apply List.map_congr_left
    intro i hi
    have hi2 : i < 256 := List.mem_range.mp hi
    rw [c_str_getD _ _ (by show 2 * i < p.length; omega),
      c_str_getD _ _ (by show 2 * i + 1 < p.length; omega),
      getD_take p 768 _ (by omega), getD_take p 768 _ (by omega)]
  · unfold StdString.copy
    apply List.map_congr_left
    intro i hi
    have hi2 : i < 256 := List.mem_range.mp hi
    have hb : 2 * Data2D.ElementCount + i < (StdString.mk p beyond).bytes.length := by
      show 2 * 256 + i < p.length
      omega
    rw [c_str_getD _ _ hb, getD_take p 768 _ (by omega)]
    rfl

theorem int16_spec (lo hi : Byte) :
    -2 ^ 15 ≤ int16 lo hi ∧ int16 lo hi < 2 ^ 15
      ∧ (int16 lo hi - ((lo.val : Int) + 256 * (hi.val : Int))) % 2 ^ 16 = 0 := by
  have h1 := lo.isLt
  have h2 := hi.isLt
  unfold int16
  simp only []
  split <;> refine ⟨?_, ?_, ?_⟩ <;> omega

theorem slice_eq (x z : Int) :
    Data2DKey.slice x z
      = [byte (x % 2 ^ 32).toNat, byte ((x % 2 ^ 32).toNat / 2 ^ 8),
          byte ((x % 2 ^ 32).toNat / 2 ^ 16), byte ((x % 2 ^ 32).toNat / 2 ^ 24),
          byte (z % 2 ^ 32).toNat, byte ((z % 2 ^ 32).toNat / 2 ^ 8),
          byte ((z % 2 ^ 32).toNat / 2 ^ 16), byte ((z % 2 ^ 32).toNat / 2 ^ 24), 45] := rfl

theorem subSlice_eq (x z : Int) (i : Nat) :
    SubChunkKey.slice x z i
      = [byte (x % 2 ^ 32).toNat, byte ((x % 2 ^ 32).toNat / 2 ^ 8),
          byte ((x % 2 ^ 32).toNat / 2 ^ 16), byte ((x % 2 ^ 32).toNat / 2 ^ 24),
          byte (z % 2 ^ 32).toNat, byte ((z % 2 ^ 32).toNat / 2 ^ 8),
          byte ((z % 2 ^ 32).toNat / 2 ^ 16), byte ((z % 2 ^ 32).toNat / 2 ^ 24), 47,
          byte i] := rfl

theorem chunkOfKey_slice (x z : Int) (hx : -2 ^ 31 ≤ x ∧ x < 2 ^ 31)
    (hz : -2 ^ 31 ≤ z ∧ z < 2 ^ 31) : chunkOfKey (Data2DKey.slice x z) = some (x, z) := by
  rw [slice_eq]
  unfold chunkOfKey
  simp only [List.length_cons, List.length_nil, List.getD_cons_zero, List.getD_cons_succ]
  rw [int32_int32Bytes x hx.1 hx.2, int32_int32Bytes z hz.1 hz.2]
  rfl

theorem chunkOfKey_some (key : List Byte) (c : Int × Int) :
    chunkOfKey key = some c ↔
      key.length = 9 ∧ (key.getD 8 0).val = 45
        ∧ c = (int32 (key.getD 0 0) (key.getD 1 0) (key.getD 2 0) (key.getD 3 0),
            int32 (key.getD 4 0) (key.getD 5 0) (key.getD 6 0) (key.getD 7 0)) := by
  unfold chunkOfKey
  simp only [Data2DKey.KeySize, ChunkType.Data2D]
  by_cases h1 : key.length = 9
  · by_cases h2 : (key.getD 8 0).val = 45
    · simp only [h1, h2, if_true, Option.some.injEq, true_and]
      exact eq_comm
    · simp only [h1, h2, if_true, if_false, false_and, and_false]
      exact Iff.intro (fun h => nomatch h) (fun h => h.elim)
  · simp only [h1, if_false, false_and]
    exact Iff.intro (fun h => nomatch h) (fun h => h.elim)

theorem chunkOfKey_none (key : List Byte) (h : key.length ≠ 9 ∨ (key.getD 8 0).val ≠ 45) :
    chunkOfKey key = none := by
  cases hk : chunkOfKey key with
  | none => rfl
  | some c =>
    obtain ⟨h1, h2, _⟩ := (chunkOfKey_some key c).mp hk
    rcases h with h | h
    · exact absurd h1 h
    · exact absurd h2 h

theorem length_nine (key : List Byte) (h : key.length = 9) :
    key = [key.getD 0 0, key.getD 1 0, key.getD 2 0, key.getD 3 0, key.getD 4 0, key.getD 5 0,
      key.getD 6 0, key.getD 7 0, key.getD 8 0] := by
  match key, h with
  | [_, _, _, _, _, _, _, _, _], _ => rfl

/-- A key the test accepts is the surface key of the column it yields. -/
theorem slice_of_chunkOfKey (key : List Byte) (c : Int × Int) (h : chunkOfKey key = some c) :
    key = Data2DKey.slice c.1 c.2 := by
  obtain ⟨h1, h2, rfl⟩ := (chunkOfKey_some key c).mp h
  have h9 := length_nine key h1
  have e : Data2DKey.slice
      (int32 (key.getD 0 0) (key.getD 1 0) (key.getD 2 0) (key.getD 3 0))
      (int32 (key.getD 4 0) (key.getD 5 0) (key.getD 6 0) (key.getD 7 0))
      = int32Bytes (int32 (key.getD 0 0) (key.getD 1 0) (key.getD 2 0) (key.getD 3 0))
        ++ int32Bytes (int32 (key.getD 4 0) (key.getD 5 0) (key.getD 6 0) (key.getD 7 0))
        ++ [byte ChunkType.Data2D] := rfl
  rw [e, int32Bytes_int32, int32Bytes_int32]
  have h8 : key.getD 8 0 = byte ChunkType.Data2D := Fin.ext h2
  rw [← h8]
  exact h9

theorem surface768_length : surface768.length = 768 := by
  unfold surface768
  simp only [List.length_cons, List.length_append, List.length_replicate]

/-! ## Surface decoding and keys -/

/-- C11: for a surface payload `p` of at least 768 bytes that the store returns with `kOk`,
`processData2D` succeeds; `HeightMap` has 256 entries, entry `i` being the signed little-endian
16-bit value of bytes `2i`, `2i+1`, and `Biomes` has 256 bytes, byte `i` being the byte at offset
`512 + i`; the result is the same for every payload with the same first 768 bytes, so for `p`
followed by any trailing bytes. -/
theorem surface_decoding (db : DB) (x z version : Int) (dict : PyDict) (p : List Byte)
    (beyond : Nat → Byte) (hc : (db.Get (Data2DKey.slice x z)).code = 0)
    (hv : (db.Get (Data2DKey.slice x z)).value = StdString.mk p beyond)
    (hlen : 768 ≤ p.length) :
    ∃ heightMap biomes,
      processData2D db x z version dict
          = .ok (PyDict_SetItemString (PyDict_SetItemString dict "Biomes" (.str biomes))
              "HeightMap" (.intTuple heightMap))
        ∧ heightMap.length = 256 ∧ biomes.length = 256
        ∧ (∀ i, i < 256 →
            heightMap[i]? = some (int16 (p.getD (2 * i) 0) (p.getD (2 * i + 1) 0))
              ∧ biomes[i]? = some (p.getD (512 + i) 0))
        ∧ (∀ lo hi : Byte, -2 ^ 15 ≤ int16 lo hi ∧ int16 lo hi < 2 ^ 15
            ∧ (int16 lo hi - ((lo.val : Int) + 256 * (hi.val : Int))) % 2 ^ 16 = 0)
        ∧ (∀ (db2 : DB) (p2 : List Byte) (beyond2 : Nat → Byte),
            (db2.Get (Data2DKey.slice x z)).code = 0 →
            (db2.Get (Data2DKey.slice x z)).value = StdString.mk p2 beyond2 →
            p2.take 768 = p.take 768 →
            processData2D db2 x z version dict = processData2D db x z version dict)
        ∧ (∀ (db2 : DB) (extra : List Byte) (beyond2 : Nat → Byte),
            (db2.Get (Data2DKey.slice x z)).code = 0 →
            (db2.Get (Data2DKey.slice x z)).value = StdString.mk (p ++ extra) beyond2 →
            processData2D db2 x z version dict = processData2D db x z version dict) := by
  obtain ⟨hh, hb⟩ := data2D_lists p beyond hlen
  have hres := processData2D_of_ok db x z version dict hc
  rw [hv, hh, hb] at hres
  have hgen : ∀ (db2 : DB) (p2 : List Byte) (beyond2 : Nat → Byte),
      (db2.Get (Data2DKey.slice x z)).code = 0 →
      (db2.Get (Data2DKey.slice x z)).value = StdString.mk p2 beyond2 →
      p2.take 768 = p.take 768 →
      processData2D db2 x z version dict = processData2D db x z version dict := by
    intro db2 p2 beyond2 hc2 hv2 htake
    have hlen2 : 768 ≤ p2.length := by
      have h1 := congrArg List.length htake
      rw [List.length_take, List.length_take] at h1
      omega
    obtain ⟨hh2, hb2⟩ := data2D_lists p2 beyond2 hlen2
    have hres2 := processData2D_of_ok db2 x z version dict hc2
    rw [hv2, hh2, hb2, htake] at hres2
    rw [hres, hres2]
  refine ⟨_, _, hres, ?_, ?_, ?_, int16_spec, hgen, ?_⟩
  · rw [List.length_map, List.length_range]
  · rw [List.length_map, List.length_range]
  · intro i hi
    constructor
    · rw [List.getElem?_map, List.getElem?_range hi, Option.map_some',
        getD_take p 768 _ (by omega), getD_take p 768 _ (by omega)]
    · rw [List.getElem?_map, List.getElem?_range hi, Option.map_some',
        getD_take p 768 _ (by omega)]
  · intro db2 extra beyond2 hc2 hv2
    exact hgen db2 (p ++ extra) beyond2 hc2 hv2 (List.take_append_of_le_length hlen)

theorem surface_decoding_witness :
    (dbOfList [(Data2DKey.slice 0 0, surface768)]).Get (Data2DKey.slice 0 0)
        = ⟨0, StdString.mk surface768 fun _ => 0⟩
      ∧ 768 ≤ surface768.length
      ∧ (surface768 ++ List.replicate 104 9).length = 872
      ∧ processData2D (dbOfList [(Data2DKey.slice 0 0, surface768 ++ List.replicate 104 9)])
            0 0 0 []
          = processData2D (dbOfList [(Data2DKey.slice 0 0, surface768)]) 0 0 0 [] :=
  ⟨rfl, by rw [surface768_length],
    by rw [List.length_append, surface768_length, List.length_replicate],
    (surface_decoding (dbOfList [(Data2DKey.slice 0 0, surface768)]) 0 0 0 [] surface768
      (fun _ => 0) rfl rfl (by rw [surface768_length])).elim fun _ h => h.elim fun _ h2 =>
        h2.2.2.2.2.2.2 (dbOfList [(Data2DKey.slice 0 0, surface768 ++ List.replicate 104 9)])
          (List.replicate 104 9) (fun _ => 0) rfl rfl⟩

/-- C12: the surface key of a column is 9 bytes, `x` as a little-endian `int32_t`, then `z` as
a little-endian `int32_t`, then the tag byte 45; the sub-chunk key for an index below 16 is 10
bytes, the same 8 coordinate bytes, then the tag byte 47, which is not 45, then the index. -/
theorem key_layout (x z : Int) (index : Nat) (hi : index < 16) :
    (Data2DKey.slice x z).length = 9
      ∧ (Data2DKey.slice x z).take 4 = int32Bytes x
      ∧ ((Data2DKey.slice x z).drop 4).take 4 = int32Bytes z
      ∧ ((Data2DKey.slice x z).drop 8).map Fin.val = [45]
      ∧ (SubChunkKey.slice x z index).length = 10
      ∧ (SubChunkKey.slice x z index).take 8 = (Data2DKey.slice x z).take 8
      ∧ ((SubChunkKey.slice x z index).drop 8).map Fin.val = [47, index]
      ∧ ChunkType.SubChunkPrefix ≠ ChunkType.Data2D
      ∧ (∀ v : Int, ∃ b0 b1 b2 b3 : Byte, int32Bytes v = [b0, b1, b2, b3]
          ∧ ((b0.val : Int) + 2 ^ 8 * b1.val + 2 ^ 16 * b2.val + 2 ^ 24 * b3.val) = v % 2 ^ 32
          ∧ (-2 ^ 31 ≤ v → v < 2 ^ 31 → int32 b0 b1 b2 b3 = v)) := by
  refine ⟨rfl, rfl, rfl, rfl, rfl, rfl, ?_, by decide, ?_⟩
  · rw [subSlice_eq]
    simp only [List.drop_succ_cons, List.drop_zero, List.map_cons, List.map_nil, byte_val]
    have e : index % 256 = index := by omega
    rw [e]
    rfl
  · intro v
    refine ⟨_, _, _, _, rfl, ?_, fun h1 h2 => int32_int32Bytes v h1 h2⟩
    simp only [byte_val]
    have hu : ((v % 2 ^ 32).toNat : Int) = v % 2 ^ 32 :=
      Int.toNat_of_nonneg (Int.emod_nonneg _ (by decide))
    have hu2 : v % 2 ^ 32 < 2 ^ 32 := Int.emod_lt_of_pos _ (by decide)
    generalize (v % 2 ^ 32).toNat = u at *
    omega

theorem key_layout_witness :
    (3 : Nat) < 16
      ∧ (SubChunkKey.slice (-2) 1 3).length = 10
      ∧ ((SubChunkKey.slice (-2) 1 3).drop 8).map Fin.val = [47, 3] :=
  ⟨by decide, (key_layout (-2) 1 3 (by decide)).2.2.2.2.1,
    (key_layout (-2) 1 3 (by decide)).2.2.2.2.2.2.1⟩

theorem int32Bytes_injective (x y : Int) (hx : -2 ^ 31 ≤ x ∧ x < 2 ^ 31)
    (hy : -2 ^ 31 ≤ y ∧ y < 2 ^ 31) (h : int32Bytes x = int32Bytes y) : x = y := by
  have h1 := int32_int32Bytes x hx.1 hx.2
  have h2 := int32_int32Bytes y hy.1 hy.2
  unfold int32Bytes at h
  simp only [List.cons.injEq, and_true] at h
  obtain ⟨e0, e1, e2, e3⟩ := h
  rw [e0, e1, e2, e3, h2] at h1
  exact h1.symm

/-- C13: for an `int32_t` pair `(x, z)` the test made on the keys of the store yields `(x, z)`
on the surface key built for it; sub-chunk keys built for `int32_t` columns and indices below 16
are equal only when column and index are; the test rejects every key whose length is not 9 or
whose ninth byte is not 45, and so every sub-chunk key. -/
theorem key_round_trip (x z : Int) (hx : -2 ^ 31 ≤ x ∧ x < 2 ^ 31)
    (hz : -2 ^ 31 ≤ z ∧ z < 2 ^ 31) :
    chunkOfKey (Data2DKey.slice x z) = some (x, z)
      ∧ (∀ (x2 z2 : Int) (i i2 : Nat), (-2 ^ 31 ≤ x2 ∧ x2 < 2 ^ 31) →
          (-2 ^ 31 ≤ z2 ∧ z2 < 2 ^ 31) → i < 16 → i2 < 16 →
          SubChunkKey.slice x z i = SubChunkKey.slice x2 z2 i2 → x = x2 ∧ z = z2 ∧ i = i2)
      ∧ (∀ key : List Byte, key.length ≠ 9 ∨ (key.getD 8 0).val ≠ 45 → chunkOfKey key = none)
      ∧ (∀ (x2 z2 : Int) (i : Nat), chunkOfKey (SubChunkKey.slice x2 z2 i) = none) := by
  refine ⟨chunkOfKey_slice x z hx hz, ?_, chunkOfKey_none, ?_⟩
  · intro x2 z2 i i2 hx2 hz2 hi hi2 h
    rw [subSlice_eq, subSlice_eq] at h
    simp only [List.cons.injEq, and_true] at h
    obtain ⟨a0, a1, a2, a3, c0, c1, c2, c3, _, hidx⟩ := h
    refine ⟨int32Bytes_injective x x2 hx hx2 ?_, int32Bytes_injective z z2 hz hz2 ?_, ?_⟩
    · unfold int32Bytes
      simp only [a0, a1, a2, a3]
    · unfold int32Bytes
      simp only [c0, c1, c2, c3]
    · have h1 := congrArg Fin.val hidx
      simp only [byte_val] at h1
      omega
  · intro x2 z2 i
    refine chunkOfKey_none _ (Or.inl ?_)
    rw [subSlice_eq]
    simp only [List.length_cons, List.length_nil]
    decide

theorem key_round_trip_witness :
    ((-2 ^ 31 : Int) ≤ -7 ∧ (-7 : Int) < 2 ^ 31) ∧ ((-2 ^ 31 : Int) ≤ 300 ∧ (300 : Int) < 2 ^ 31)
      ∧ chunkOfKey (Data2DKey.slice (-7) 300) = some (-7, 300) :=
  ⟨by decide, by decide, (key_round_trip (-7) 300 (by decide) (by decide)).1⟩

/-! ### Dictionaries -/

theorem GetItem_nil {V : Type} (k : String) : PyDict_GetItem ([] : List (String × V)) k = none :=
  rfl

theorem GetItem_cons {V : Type} (e : String × V) (d : List (String × V)) (k : String) :
    PyDict_GetItem (e :: d) k = if e.1 = k then some e.2 else PyDict_GetItem d k := by
  unfold PyDict_GetItem
  rw [List.find?_cons]
  by_cases h : e.1 = k
  · have hb : (e.1 == k) = true := by simpa using h
    rw [hb, if_pos h]
    rfl
  · have hb : (e.1 == k) = false := by simpa using h
    rw [hb, if_neg h]

theorem any_key_false {V : Type} (d : List (String × V)) (k : String)
    (h : ∀ e ∈ d, e.1 ≠ k) : (d.any fun e => e.1 == k) = false := by
  rw [List.any_eq_false]
  intro e he
  simpa using h e he

theorem SetItem_fresh {V : Type} (d : List (String × V)) (k : String) (v : V)
    (h : ∀ e ∈ d, e.1 ≠ k) : PyDict_SetItem d k v = d ++ [(k, v)] := by
  unfold PyDict_SetItem
  rw [any_key_false d k h]
  rfl

theorem GetItem_map_update {V : Type} (d : List (String × V)) (k k2 : String) (v : V) :
    PyDict_GetItem (d.map fun e => if e.1 == k then (k, v) else e) k2
      = if k2 = k then (if (d.any fun e => e.1 == k) = true then some v else none)
        else PyDict_GetItem d k2 := by
  induction d with
  | nil => simp [GetItem_nil]
  | cons e t ih =>
    rw [List.map_cons, GetItem_cons, ih, GetItem_cons, List.any_cons]
    by_cases h1 : e.1 = k
    · by_cases h2 : k2 = k
      · simp [h1, h2]
      · have h3 : ¬ k = k2 := fun h => h2 h.symm
        simp [h1, h2, h3]
    · by_cases h2 : k2 = k
      · have h3 : ¬ e.1 = k2 := fun h => h1 (h.trans h2)
        have hb : (e.1 == k) = false := by simpa using h1
        simp only [h1, h2, h3, if_false, if_true]
        rw [hb, Bool.false_or]
        simp [h1]
      · simp [h1, h2]

theorem GetItem_append_fresh {V : Type} (d : List (String × V)) (k k2 : String) (v : V)
    (h : ∀ e ∈ d, e.1 ≠ k) :
    PyDict_GetItem (d ++ [(k, v)]) k2 = if k2 = k then some v else PyDict_GetItem d k2 := by
  induction d with
  | nil =>
    rw [List.nil_append, GetItem_cons, GetItem_nil]
    by_cases h2 : k2 = k
    · simp [h2]
    · have h3 : ¬ k = k2 := fun h => h2 h.symm
      simp [h2, h3]
  | cons e t ih =>
    rw [List.cons_append, GetItem_cons, GetItem_cons,
      ih (fun a ha => h a (List.mem_cons_of_mem _ ha))]
    have he : e.1 ≠ k := h e (List.mem_cons_self _ _)
    by_cases h1 : e.1 = k2
    · have h2 : ¬ k2 = k := fun h => he (h1.trans h)
      simp [h1, h2]
    · simp [h1]

/-- What a dictionary maps a key to after `PyDict_SetItem`. -/
theorem GetItem_SetItem {V : Type} (d : List (String × V)) (k k2 : String) (v : V) :
    PyDict_GetItem (PyDict_SetItem d k v) k2
      = if k2 = k then some v else PyDict_GetItem d k2 := by
  unfold PyDict_SetItem
  by_cases h : (d.any fun e => e.1 == k) = true
  · rw [if_pos h, GetItem_map_update, if_pos h]
  · rw [if_neg h]
    apply GetItem_append_fresh
    intro e he hk
    apply h
    rw [List.any_eq_true]
    exact ⟨e, he, by simpa using hk⟩

/-! ### The dictionary of columns -/

/-- The insertion `leveldb_get_chunk_keys` makes for a column. -/
theorem chunkKeysStep_some (retval : ChunkKeysDict) (key : List Byte) (c : Int × Int)
    (h : chunkOfKey key = some c) :
    chunkKeysStep retval key
      = PyDict_SetItem retval (chunkKeyString c.1 c.2) (chunkValue 9 c.1 c.2) := by
  have h9 : key.length = 9 := ((chunkOfKey_some key c).mp h).1
  unfold chunkKeysStep
  rw [h, h9]

theorem chunkKeysStep_none (retval : ChunkKeysDict) (key : List Byte)
    (h : chunkOfKey key = none) : chunkKeysStep retval key = retval := by
  unfold chunkKeysStep
  rw [h]

/-- The loop of `leveldb_get_chunk_keys` makes one insertion per key the test accepts, in the
order of the iteration. -/
theorem chunkKeys_foldl (keys : List (List Byte)) (acc : ChunkKeysDict) :
    keys.foldl chunkKeysStep acc
      = (keys.filterMap chunkOfKey).foldl
          (fun d c => PyDict_SetItem d (chunkKeyString c.1 c.2) (chunkValue 9 c.1 c.2)) acc := by
  induction keys generalizing acc with
  | nil => rfl
  | cons key t ih =>
    rw [List.foldl_cons]
    cases h : chunkOfKey key with
    | none => rw [chunkKeysStep_none _ _ h, List.filterMap_cons_none h, ih]
    | some c => rw [chunkKeysStep_some _ _ c h, List.filterMap_cons_some h, List.foldl_cons, ih]

theorem keyOf_injective (c c2 : Int × Int)
    (h : chunkKeyString c.1 c.2 = chunkKeyString c2.1 c2.2) : c = c2 := by
  obtain ⟨h1, h2⟩ := chunkKeyString_injective _ _ _ _ h
  exact Prod.ext h1 h2

/-- Insertions for distinct columns put one pair each behind what the dictionary holds. -/
theorem foldl_SetItem_fresh (cols : List (Int × Int)) (acc : ChunkKeysDict)
    (hnd : cols.Nodup) (hacc : ∀ e ∈ acc, ∀ c ∈ cols, e.1 ≠ chunkKeyString c.1 c.2) :
    cols.foldl (fun d c => PyDict_SetItem d (chunkKeyString c.1 c.2) (chunkValue 9 c.1 c.2)) acc
      = acc ++ cols.map fun c => (chunkKeyString c.1 c.2, chunkValue 9 c.1 c.2) := by
  induction cols generalizing acc with
  | nil => simp
  | cons c t ih =>
    rw [List.foldl_cons, SetItem_fresh acc _ _ (fun e he => hacc e he c (List.mem_cons_self _ _))]
    obtain ⟨hc, ht⟩ := List.nodup_cons.mp hnd
    rw [ih _ ht, List.map_cons, List.append_assoc]
    · rfl
    · intro e he c2 hc2
      rcases List.mem_append.mp he with h1 | h1
      · exact hacc e h1 c2 (List.mem_cons_of_mem _ hc2)
      · rw [List.mem_singleton] at h1
        rw [h1]
        intro heq
        have := keyOf_injective c c2 heq
        rw [this] at hc
        exact hc hc2

/-- What the dictionary maps a key to after the insertions for a list of columns. -/
theorem GetItem_foldl (cols : List (Int × Int)) (acc : ChunkKeysDict) (s : String)
    (v : PyDict) :
    PyDict_GetItem
        (cols.foldl (fun d c => PyDict_SetItem d (chunkKeyString c.1 c.2)
          (chunkValue 9 c.1 c.2)) acc) s = some v
      ↔ (∃ c ∈ cols, chunkKeyString c.1 c.2 = s ∧ chunkValue 9 c.1 c.2 = v)
        ∨ ((∀ c ∈ cols, chunkKeyString c.1 c.2 ≠ s) ∧ PyDict_GetItem acc s = some v) := by
  induction cols generalizing acc with
  | nil => simp
  | cons c t ih =>
    rw [List.foldl_cons, ih, GetItem_SetItem]
    constructor
    · rintro (⟨c2, hc2, hk, hv⟩ | ⟨hall, hget⟩)
      · exact Or.inl ⟨c2, List.mem_cons_of_mem _ hc2, hk, hv⟩
      · by_cases hs : s = chunkKeyString c.1 c.2
        · rw [if_pos hs] at hget
          exact Or.inl ⟨c, List.mem_cons_self _ _, hs.symm, Option.some.inj hget⟩
        · rw [if_neg hs] at hget
          refine Or.inr ⟨?_, hget⟩
          intro c2 hc2
          rcases List.mem_cons.mp hc2 with h1 | h1
          · rw [h1]
            exact fun h => hs h.symm
          · exact hall c2 h1
    · rintro (⟨c2, hc2, hk, hv⟩ | ⟨hall, hget⟩)
      · rcases List.mem_cons.mp hc2 with h1 | h1
        · subst h1
          by_cases hex : ∃ c3 ∈ t, chunkKeyString c3.1 c3.2 = s
          · obtain ⟨c3, hc3, hk3⟩ := hex
            have e : c3 = c2 := keyOf_injective c3 c2 (hk3.trans hk.symm)
            exact Or.inl ⟨c3, hc3, hk3, by rw [e]; exact hv⟩
          · refine Or.inr ⟨fun c3 hc3 hk3 => hex ⟨c3, hc3, hk3⟩, ?_⟩
            rw [if_pos hk.symm, hv]
        · exact Or.inl ⟨c2, h1, hk, hv⟩
      · refine Or.inr ⟨fun c2 hc2 => hall c2 (List.mem_cons_of_mem _ hc2), ?_⟩
        have hs : ¬ s = chunkKeyString c.1 c.2 :=
          fun h => hall c (List.mem_cons_self _ _) h.symm
        rw [if_neg hs]
        exact hget

/-- The mapping built does not depend on the order in which the columns are inserted. -/
theorem GetItem_foldl_perm (cols cols2 : List (Int × Int)) (hp : cols.Perm cols2) (s : String) :
    PyDict_GetItem
        (cols.foldl (fun d c => PyDict_SetItem d (chunkKeyString c.1 c.2)
          (chunkValue 9 c.1 c.2)) ([] : ChunkKeysDict)) s
      = PyDict_GetItem
        (cols2.foldl (fun d c => PyDict_SetItem d (chunkKeyString c.1 c.2)
          (chunkValue 9 c.1 c.2)) ([] : ChunkKeysDict)) s := by
  apply Option.ext
  intro v
  rw [Option.mem_def, Option.mem_def, GetItem_foldl, GetItem_foldl]
  constructor
  · rintro (⟨c, hc, h⟩ | ⟨_, h⟩)
    · exact Or.inl ⟨c, hp.mem_iff.mp hc, h⟩
    · rw [GetItem_nil] at h
      cases h
  · rintro (⟨c, hc, h⟩ | ⟨_, h⟩)
    · exact Or.inl ⟨c, hp.mem_iff.mpr hc, h⟩
    · rw [GetItem_nil] at h
      cases h

theorem cols_nodup (keys : List (List Byte)) (h : keys.Nodup) :
    (keys.filterMap chunkOfKey).Nodup := by
  apply List.Nodup.filterMap _ h
  intro k k2 c hc hc2
  rw [slice_of_chunkOfKey k c hc, slice_of_chunkOfKey k2 c hc2]

theorem length_filterMap_chunkOfKey (keys : List (List Byte)) :
    (keys.filterMap chunkOfKey).length
      = (keys.filter fun key => decide (key.length = 9 ∧ (key.getD 8 0).val = 45)).length := by
  induction keys with
  | nil => rfl
  | cons key t ih =>
    cases h : chunkOfKey key with
    | none =>
      have hn : ¬ (key.length = 9 ∧ (key.getD 8 0).val = 45) := by
        intro hk
        have := (chunkOfKey_some key _).mpr ⟨hk.1, hk.2, rfl⟩
        rw [h] at this
        cases this
      rw [List.filterMap_cons_none h, List.filter_cons_of_neg (by simpa using hn), ih]
    | some c =>
      have hp : key.length = 9 ∧ (key.getD 8 0).val = 45 :=
        ⟨((chunkOfKey_some key c).mp h).1, ((chunkOfKey_some key c).mp h).2.1⟩
      rw [List.filterMap_cons_some h, List.filter_cons_of_pos (by simpa using hp),
        List.length_cons, List.length_cons, ih]

theorem chunkValue_eq (x z : Int) :
    chunkValue 9 x z
      = [("_keysize", .int 9), ("_version", .int 2), ("x", .int x), ("z", .int z)] := by
  rfl

/-- What `leveldb_get_chunk_keys` returns for an opened store. -/
theorem get_chunk_keys_eq (leveldb_reference : leveldb_ptrmap) (leveldb_path : String) (db : DB)
    (hopen : leveldb_reference.lookup leveldb_path = some db) :
    leveldb_get_chunk_keys leveldb_reference leveldb_path
      = .ok ((db.keys.filterMap chunkOfKey).foldl
          (fun d c => PyDict_SetItem d (chunkKeyString c.1 c.2) (chunkValue 9 c.1 c.2)) []) := by
  unfold leveldb_get_chunk_keys
  rw [hopen]
  simp only []
  rw [chunkKeys_foldl]

/-- C14: for an opened store iterating distinct keys, `leveldb_get_chunk_keys` succeeds; the
dictionary it returns has one entry per key of length 9 with tag byte 45; it maps `"x,z"` to an
entry exactly when `(x, z)` is read from such a key of the store, the entry holding the key size 9,
the version 2 and the column; every entry comes from such a key; an empty store gives the empty
dictionary, and a store iterating one surface key and one 9-byte key with another tag gives
exactly the one entry of the surface key. -/
theorem chunk_keys_columns (leveldb_reference : leveldb_ptrmap) (leveldb_path : String)
    (db : DB) (hopen : leveldb_reference.lookup leveldb_path = some db) (hnd : db.keys.Nodup) :
    ∃ retval, leveldb_get_chunk_keys leveldb_reference leveldb_path = .ok retval
      ∧ retval.length
          = (db.keys.filter fun key => decide (key.length = 9 ∧ (key.getD 8 0).val = 45)).length
      ∧ (∀ (x z : Int) (v : PyDict), PyDict_GetItem retval (chunkKeyString x z) = some v ↔
          (∃ key ∈ db.keys, key.length = 9 ∧ (key.getD 8 0).val = 45
              ∧ x = int32 (key.getD 0 0) (key.getD 1 0) (key.getD 2 0) (key.getD 3 0)
              ∧ z = int32 (key.getD 4 0) (key.getD 5 0) (key.getD 6 0) (key.getD 7 0))
            ∧ v = [("_keysize", .int 9), ("_version", .int 2), ("x", .int x), ("z", .int z)])
      ∧ (∀ e ∈ retval, ∃ key ∈ db.keys, ∃ c, chunkOfKey key = some c
          ∧ e = (chunkKeyString c.1 c.2, chunkValue 9 c.1 c.2))
      ∧ (db.keys = [] → retval = [])
      ∧ (∀ (x z : Int) (other : List Byte), (-2 ^ 31 ≤ x ∧ x < 2 ^ 31) →
          (-2 ^ 31 ≤ z ∧ z < 2 ^ 31) → other.length = 9 → (other.getD 8 0).val ≠ 45 →
          (db.keys = [Data2DKey.slice x z, other] ∨ db.keys = [other, Data2DKey.slice x z]) →
          retval = [(chunkKeyString x z, chunkValue 9 x z)]) := by
  have hres := get_chunk_keys_eq leveldb_reference leveldb_path db hopen
  have hflat := foldl_SetItem_fresh (db.keys.filterMap chunkOfKey) [] (cols_nodup db.keys hnd)
    (fun e he => absurd he (List.not_mem_nil e))
  rw [List.nil_append] at hflat
  refine ⟨_, hres, ?_, ?_, ?_, ?_, ?_⟩
  · rw [hflat, List.length_map, length_filterMap_chunkOfKey]
  · intro x z v
    rw [GetItem_foldl, GetItem_nil]
    constructor
    · rintro (⟨c, hc, hk, hv⟩ | ⟨_, h⟩)
      · obtain ⟨key, hkey, hck⟩ := List.mem_filterMap.mp hc
        have hcxz : c = (x, z) := keyOf_injective c (x, z) hk
        subst hcxz
        obtain ⟨h9, h45, hdec⟩ := (chunkOfKey_some key _).mp hck
        obtain ⟨hx, hz⟩ := Prod.mk.inj hdec
        exact ⟨⟨key, hkey, h9, h45, hx, hz⟩, by rw [← hv, chunkValue_eq]⟩
      · cases h
    · rintro ⟨⟨key, hkey, h9, h45, hx, hz⟩, hv⟩
      refine Or.inl ⟨(x, z), List.mem_filterMap.mpr ⟨key, hkey, ?_⟩, rfl, ?_⟩
      · exact (chunkOfKey_some key (x, z)).mpr ⟨h9, h45, by rw [hx, hz]⟩
      · rw [hv, chunkValue_eq]
  · intro e he
    rw [hflat] at he
    obtain ⟨c, hc, hec⟩ := List.mem_map.mp he
    obtain ⟨key, hkey, hck⟩ := List.mem_filterMap.mp hc
    exact ⟨key, hkey, c, hck, hec.symm⟩
  · intro hempty
    rw [hempty]
    rfl
  · intro x z other hx hz h9 h45 hkeys
    have h1 := chunkOfKey_slice x z hx hz
    have h2 := chunkOfKey_none other (Or.inr h45)
    rw [hflat]
    rcases hkeys with hk | hk
    · rw [hk, List.filterMap_cons_some h1, List.filterMap_cons_none h2]
      rfl
    · rw [hk, List.filterMap_cons_none h2, List.filterMap_cons_some h1]
      rfl

theorem chunk_keys_columns_witness :
    ([("world", dbOfList [(Data2DKey.slice 1 2, surface768),
          (int32Bytes 1 ++ int32Bytes 2 ++ [118], [9])])] : leveldb_ptrmap).lookup "world"
        = some (dbOfList [(Data2DKey.slice 1 2, surface768),
            (int32Bytes 1 ++ int32Bytes 2 ++ [118], [9])])
      ∧ (dbOfList [(Data2DKey.slice 1 2, surface768),
            (int32Bytes 1 ++ int32Bytes 2 ++ [118], [9])]).keys.Nodup
      ∧ ∃ retval, leveldb_get_chunk_keys
            [("world", dbOfList [(Data2DKey.slice 1 2, surface768),
              (int32Bytes 1 ++ int32Bytes 2 ++ [118], [9])])] "world" = .ok retval
          ∧ retval = [(chunkKeyString 1 2, chunkValue 9 1 2)] :=
  ⟨rfl, by decide,
    (chunk_keys_columns
      [("world", dbOfList [(Data2DKey.slice 1 2, surface768),
        (int32Bytes 1 ++ int32Bytes 2 ++ [118], [9])])] "world" _ rfl (by decide)).imp
      fun _ h => ⟨h.1, h.2.2.2.2.2 1 2 (int32Bytes 1 ++ int32Bytes 2 ++ [118]) (by decide)
        (by decide) (by decide) (by decide) (Or.inl rfl)⟩⟩

/-- A section the loop body produces carries the index it was called with. -/
theorem processSubChunk_ok_Y (x z : Int) (subChunkIndex : Nat) (value : StdString)
    (s : SectionDict) (h : processSubChunk x z subChunkIndex value = .ok s) :
    s.Y = subChunkIndex := by
  by_cases hv : (value.c_str 0).val = 8
  · exact (processSubChunk_blockdata x z subChunkIndex value hv s h).2.2
  · unfold processSubChunk at h
    simp only [] at h
    rw [if_neg hv] at h
    cases h

/-- When every present record decodes, the loop appends the section of each present index, in
the order of the indices. -/
theorem loop_sections (db : DB) (x z : Int) (idxs : List Nat) (acc : List SectionDict)
    (hwf : ∀ i ∈ idxs, (db.Get (SubChunkKey.slice x z i)).code = 0 →
      ∃ s, processSubChunk x z i (db.Get (SubChunkKey.slice x z i)).value = .ok s) :
    ∃ secs, processSubChunksLoop db x z idxs acc = .ok (acc ++ secs)
      ∧ secs.map (fun s => s.Y)
          = idxs.filter (fun i => decide ((db.Get (SubChunkKey.slice x z i)).code = 0))
      ∧ ∀ s ∈ secs, (db.Get (SubChunkKey.slice x z s.Y)).code = 0
          ∧ processSubChunk x z s.Y (db.Get (SubChunkKey.slice x z s.Y)).value = .ok s := by
  induction idxs generalizing acc with
  | nil => exact ⟨[], by rw [List.append_nil]; rfl, rfl, fun s hs => absurd hs (List.not_mem_nil s)⟩
  | cons i t ih =>
    have ht : ∀ j ∈ t, (db.Get (SubChunkKey.slice x z j)).code = 0 →
        ∃ s, processSubChunk x z j (db.Get (SubChunkKey.slice x z j)).value = .ok s :=
      fun j hj => hwf j (List.mem_cons_of_mem _ hj)
    rw [processSubChunksLoop]
    by_cases hc : (db.Get (SubChunkKey.slice x z i)).code = 0
    · obtain ⟨s, hs⟩ := hwf i (List.mem_cons_self _ _) hc
      obtain ⟨secs, hloop, hY, hall⟩ := ih (acc ++ [s]) ht
      have hsY := processSubChunk_ok_Y x z i _ s hs
      simp only [hc, if_true, hs]
      refine ⟨s :: secs, ?_, ?_, ?_⟩
      · rw [hloop, List.append_assoc]
        rfl
      · rw [List.map_cons, hY, hsY, List.filter_cons_of_pos (by simpa using hc)]
      · intro s2 hs2
        rcases List.mem_cons.mp hs2 with h1 | h1
        · rw [h1, hsY]
          exact ⟨hc, hs⟩
        · exact hall s2 h1
    · obtain ⟨secs, hloop, hY, hall⟩ := ih acc ht
      simp only [hc, if_false]
      refine ⟨secs, hloop, ?_, hall⟩
      rw [hY, List.filter_cons_of_neg (by simpa using hc)]

/-- The loop reads the store only at the sub-chunk keys of the indices it goes over. -/
theorem loop_congr (db db2 : DB) (x z : Int) (idxs : List Nat) (acc : List SectionDict)
    (h : ∀ i ∈ idxs, db2.Get (SubChunkKey.slice x z i) = db.Get (SubChunkKey.slice x z i)) :
    processSubChunksLoop db2 x z idxs acc = processSubChunksLoop db x z idxs acc := by
  induction idxs generalizing acc with
  | nil => rfl
  | cons i t ih =>
    have ht : ∀ j ∈ t, db2.Get (SubChunkKey.slice x z j) = db.Get (SubChunkKey.slice x z j) :=
      fun j hj => h j (List.mem_cons_of_mem _ hj)
    rw [processSubChunksLoop, processSubChunksLoop, h i (List.mem_cons_self _ _)]
    simp only [ih _ ht]

/-! ## The sections of a column -/

/-- C16: for a column whose present sub-chunk records all decode, `processSubChunks` succeeds
and stores a `Sections` list with one section per index in 0..15 that has a stored record and
none for the others: the `Y` values of the list are the present indices in ascending order, each
section is what the loop body makes of the record stored under its `Y`, the list has at most 16
entries; and the call reads the store only at the sub-chunk keys of the indices 0..15. -/
theorem subchunks_listing (db : DB) (x z : Int) (dict : PyDict)
    (hwf : ∀ i, i < SubChunkKey.MaxSubChunkCount →
      (db.Get (SubChunkKey.slice x z i)).code = 0 →
      ∃ s, processSubChunk x z i (db.Get (SubChunkKey.slice x z i)).value = .ok s) :
    ∃ list, processSubChunks db x z dict
          = .ok (PyDict_SetItemString dict "Sections" (.sections list))
      ∧ list.map (fun s => s.Y)
          = (List.range 16).filter
              (fun i => decide ((db.Get (SubChunkKey.slice x z i)).code = 0))
      ∧ (∀ s ∈ list, s.Y < 16 ∧ (db.Get (SubChunkKey.slice x z s.Y)).code = 0
          ∧ processSubChunk x z s.Y (db.Get (SubChunkKey.slice x z s.Y)).value = .ok s)
      ∧ (list.map fun s => s.Y).Pairwise (fun a b => a < b)
      ∧ list.length ≤ 16
      ∧ (∀ db2 : DB,
          (∀ i, i < 16 → db2.Get (SubChunkKey.slice x z i) = db.Get (SubChunkKey.slice x z i)) →
          processSubChunks db2 x z dict = processSubChunks db x z dict) := by
  obtain ⟨secs, hloop, hY, hall⟩ := loop_sections db x z
    (List.range SubChunkKey.MaxSubChunkCount) [] (fun i hi => hwf i (List.mem_range.mp hi))
  rw [List.nil_append] at hloop
  have hsub : (secs.map fun s => s.Y).Sublist (List.range 16) := by
    rw [hY]
    exact List.filter_sublist _
  refine ⟨secs, ?_, hY, ?_, ?_, ?_, ?_⟩
  · unfold processSubChunks
    rw [hloop]
  · intro s hs
    have hmem : s.Y ∈ secs.map fun s => s.Y := List.mem_map.mpr ⟨s, hs, rfl⟩
    exact ⟨List.mem_range.mp (hsub.subset hmem), hall s hs⟩
  · exact List.Pairwise.sublist hsub (List.pairwise_lt_range 16)
  · have := hsub.length_le
    rw [List.length_map, List.length_range] at this
    exact this
  · intro db2 h2
    unfold processSubChunks
    rw [loop_congr db db2 x z (List.range SubChunkKey.MaxSubChunkCount) []
      (fun i hi => h2 i (List.mem_range.mp hi))]

theorem record4_decodes (x z : Int) (i : Nat) (beyond : Nat → Byte) :
    ∃ s, processSubChunk x z i
      (StdString.mk (8 :: 1 :: 8 :: (arr21 ++ [5, 0, 0, 0, 7, 7])) beyond) = .ok s := by
  obtain ⟨hv, hf⟩ := header_val 1 8 (arr21 ++ [5, 0, 0, 0, 7, 7]) beyond
  have hsz : (StdString.mk (8 :: 1 :: 8 :: (arr21 ++ [5, 0, 0, 0, 7, 7])) beyond).size
      = 2057 := by
    simp only [StdString.size, List.length_cons, List.length_append, arr21_length,
      List.length_nil]
  obtain ⟨s, hs, _⟩ := processSubChunk_supported_section x z i 4 (by decide) _ hv hf
    (by rw [hsz]; decide) (by rw [hsz]; decide)
  exact ⟨s, hs⟩

theorem subchunks_listing_witness :
    (∀ i, i < SubChunkKey.MaxSubChunkCount →
        ((dbOfList [(SubChunkKey.slice 0 0 5, 8 :: 1 :: 8 :: (arr21 ++ [5, 0, 0, 0, 7, 7]))]).Get
          (SubChunkKey.slice 0 0 i)).code = 0 →
        ∃ s, processSubChunk 0 0 i
          ((dbOfList [(SubChunkKey.slice 0 0 5,
            8 :: 1 :: 8 :: (arr21 ++ [5, 0, 0, 0, 7, 7]))]).Get
              (SubChunkKey.slice 0 0 i)).value = .ok s)
      ∧ ∃ list, processSubChunks
            (dbOfList [(SubChunkKey.slice 0 0 5, 8 :: 1 :: 8 :: (arr21 ++ [5, 0, 0, 0, 7, 7]))])
            0 0 [] = .ok (PyDict_SetItemString [] "Sections" (.sections list))
          ∧ list.map (fun s => s.Y) = [5] :=
  have hwf : ∀ i, i < SubChunkKey.MaxSubChunkCount →
      ((dbOfList [(SubChunkKey.slice 0 0 5, 8 :: 1 :: 8 :: (arr21 ++ [5, 0, 0, 0, 7, 7]))]).Get
        (SubChunkKey.slice 0 0 i)).code = 0 →
      ∃ s, processSubChunk 0 0 i
        ((dbOfList [(SubChunkKey.slice 0 0 5,
          8 :: 1 :: 8 :: (arr21 ++ [5, 0, 0, 0, 7, 7]))]).Get
            (SubChunkKey.slice 0 0 i)).value = .ok s := by
    intro i hi hc
    have hi16 : i < 16 := hi
    interval_cases i
    all_goals first
      | exact absurd hc (by decide)
      | exact record4_decodes 0 0 5 (fun _ => 0)
  ⟨hwf,
    (subchunks_listing
      (dbOfList [(SubChunkKey.slice 0 0 5, 8 :: 1 :: 8 :: (arr21 ++ [5, 0, 0, 0, 7, 7]))])
      0 0 [] hwf).imp fun _ h => ⟨h.1, h.2.1.trans (by decide)⟩⟩

/-! ### `leveldb_get_chunk_data` -/

theorem processSubChunk_version_error (x z : Int) (subChunkIndex : Nat) (version : Byte)
    (hver : version.val ≠ 8) (body : List Byte) (beyond : Nat → Byte) :
    processSubChunk x z subChunkIndex (StdString.mk (version :: body) beyond)
      = .error (.chunkVersion x z version.val) := by
  have h0 : ((StdString.mk (version :: body) beyond).c_str 0) = version := by
    simp [StdString.c_str]
  unfold processSubChunk
  simp only [h0]
  rw [if_neg hver]

/-- The call for an opened store, in terms of the two decoders. -/
theorem get_chunk_data_eq (leveldb_reference : leveldb_ptrmap) (leveldb_path : String) (db : DB)
    (hopen : leveldb_reference.lookup leveldb_path = some db) (x z version : Int) :
    leveldb_get_chunk_data leveldb_reference leveldb_path x z version
      = match processData2D db x z version [("xPos", .int z)] with
        | .ok retval => processSubChunks db x z retval
        | .error e => .error e
        | .lengthError => .lengthError := by
  unfold leveldb_get_chunk_data
  rw [hopen]
  rfl

theorem processData2D_of_miss (db : DB) (x z version : Int) (dict : PyDict)
    (hc : (db.Get (Data2DKey.slice x z)).code ≠ 0) :
    processData2D db x z version dict
      = .error (.data2D x z (db.Get (Data2DKey.slice x z)).code) := by
  unfold processData2D
  simp only [hc, ne_eq, not_false_eq_true, if_true]

theorem loop_skip (db : DB) (x z : Int) (i : Nat) (rest : List Nat) (acc : List SectionDict)
    (hc : (db.Get (SubChunkKey.slice x z i)).code ≠ 0) :
    processSubChunksLoop db x z (i :: rest) acc = processSubChunksLoop db x z rest acc := by
  rw [processSubChunksLoop]
  exact if_neg hc

/-! ## Lookup misses and failures in a column -/

/-- C17 (as the claim states it, refuted): for the column (0, 0) and a store that holds no
record, `leveldb_get_chunk_data` reports an error, the lookup error with the column and the
status `kNotFound`; `processSubChunks` alone on the same store reports none. -/
theorem surface_miss_counterexample :
    leveldb_get_chunk_data [("world", dbEmpty)] "world" 0 0 0 = .error (.data2D 0 0 1)
      ∧ processSubChunks dbEmpty 0 0 [] = .ok [("Sections", .sections [])] := by
  decide

/-- C17 (amended): for an opened store, a lookup of the surface record that ends with a status
other than `kOk` makes `leveldb_get_chunk_data` fail with the lookup error, which carries the
column and the status; a lookup of a sub-chunk index that ends with a status other than `kOk`
is no error: the loop goes on with the list unchanged, and when it is so for all 16 indices
`processSubChunks` succeeds with an empty `Sections` list. -/
theorem lookup_miss (leveldb_reference : leveldb_ptrmap) (leveldb_path : String) (db : DB)
    (hopen : leveldb_reference.lookup leveldb_path = some db) (x z version : Int) :
    ((db.Get (Data2DKey.slice x z)).code ≠ 0 →
        leveldb_get_chunk_data leveldb_reference leveldb_path x z version
          = .error (.data2D x z (db.Get (Data2DKey.slice x z)).code))
      ∧ (∀ (i : Nat) (rest : List Nat) (acc : List SectionDict),
          (db.Get (SubChunkKey.slice x z i)).code ≠ 0 →
          processSubChunksLoop db x z (i :: rest) acc = processSubChunksLoop db x z rest acc)
      ∧ (∀ dict : PyDict,
          (∀ i, i < SubChunkKey.MaxSubChunkCount →
            (db.Get (SubChunkKey.slice x z i)).code ≠ 0) →
          processSubChunks db x z dict
            = .ok (PyDict_SetItemString dict "Sections" (.sections []))) := by
  refine ⟨?_, loop_skip db x z, ?_⟩
  · intro hc
    rw [get_chunk_data_eq leveldb_reference leveldb_path db hopen,
      processData2D_of_miss db x z version _ hc]
  · intro dict hall
    obtain ⟨secs, hloop, hY, _⟩ := loop_sections db x z
      (List.range SubChunkKey.MaxSubChunkCount) []
      (fun i hi hc => absurd hc (hall i (List.mem_range.mp hi)))
    have hnil : (List.range SubChunkKey.MaxSubChunkCount).filter
        (fun i => decide ((db.Get (SubChunkKey.slice x z i)).code = 0)) = [] := by
      rw [List.filter_eq_nil_iff]
      intro i hi
      simpa using hall i (List.mem_range.mp hi)
    rw [hnil] at hY
    have hsecs : secs = [] := List.map_eq_nil_iff.mp hY
    rw [hsecs, List.nil_append] at hloop
    unfold processSubChunks
    rw [hloop]

theorem lookup_miss_witness :
    ([("world", dbEmpty)] : leveldb_ptrmap).lookup "world" = some dbEmpty
      ∧ (dbEmpty.Get (Data2DKey.slice 3 (-4))).code ≠ 0
      ∧ leveldb_get_chunk_data [("world", dbEmpty)] "world" 3 (-4) 0
        = .error (.data2D 3 (-4) 1) :=
  ⟨rfl, by decide,
    (lookup_miss [("world", dbEmpty)] "world" dbEmpty rfl 3 (-4) 0).1 (by decide)⟩

/-- The call ends with the unexpected-version error of the first present record that has a
version byte other than 8, when the surface record is present and the records before decode. -/
theorem get_chunk_data_version_error (leveldb_reference : leveldb_ptrmap)
    (leveldb_path : String) (db : DB)
    (hopen : leveldb_reference.lookup leveldb_path = some db) (x z version : Int)
    (subChunkIndex : Nat) (hi : subChunkIndex < SubChunkKey.MaxSubChunkCount)
    (versionByte : Byte) (hver : versionByte.val ≠ 8) (body : List Byte) (beyond : Nat → Byte)
    (hsurface : (db.Get (Data2DKey.slice x z)).code = 0)
    (hc : (db.Get (SubChunkKey.slice x z subChunkIndex)).code = 0)
    (hval : (db.Get (SubChunkKey.slice x z subChunkIndex)).value
      = StdString.mk (versionByte :: body) beyond)
    (hprev : ∀ j, j < subChunkIndex → (db.Get (SubChunkKey.slice x z j)).code = 0 →
      ∃ s, processSubChunk x z j (db.Get (SubChunkKey.slice x z j)).value = .ok s) :
    leveldb_get_chunk_data leveldb_reference leveldb_path x z version
      = .error (.chunkVersion x z versionByte.val) := by
  rw [get_chunk_data_eq leveldb_reference leveldb_path db hopen,
    processData2D_of_ok db x z version _ hsurface]
  apply (processSubChunks_stops db x z _ subChunkIndex hi hprev hc).1
  rw [hval]
  exact processSubChunk_version_error x z subChunkIndex versionByte hver body beyond

/-- C18 (as the claim states it, refuted): a store holds, for the column (0, 0), a 768-byte
surface record, a version-8 sub-chunk record of width 4 under index 0 and a record with the
version byte 7 under index 1; `leveldb_get_chunk_data` ends with the unexpected-version error,
which names the column and the version byte, and returns no dictionary: neither the surface
record nor the section of index 0 is delivered. -/
theorem malformed_subchunk_counterexample :
    leveldb_get_chunk_data [("world", dbBadVersion)] "world" 0 0 0
      = .error (.chunkVersion 0 0 7) := by
  refine get_chunk_data_version_error [("world", dbBadVersion)] "world" dbBadVersion rfl 0 0 0 1
    (by decide) 7 (by decide) [1, 8] (fun _ => 0) rfl rfl rfl ?_
  intro j hj _
  have hj0 : j = 0 := by omega
  subst hj0
  exact record4_decodes 0 0 0 (fun _ => 0)

/-- C18 (amended): for an opened store that holds the surface record of a column, a record
stored under a sub-chunk index below 16 whose version byte is not 8 makes
`leveldb_get_chunk_data` fail, when the records stored under the lower indices decode, with the
unexpected-version error; the error carries the column and the version byte, the same whatever
the index, and no dictionary is returned for the column. -/
theorem malformed_subchunk_aborts (leveldb_reference : leveldb_ptrmap) (leveldb_path : String)
    (db : DB) (hopen : leveldb_reference.lookup leveldb_path = some db) (x z version : Int)
    (subChunkIndex : Nat) (hi : subChunkIndex < SubChunkKey.MaxSubChunkCount)
    (versionByte : Byte) (hver : versionByte.val ≠ 8) (body : List Byte) (beyond : Nat → Byte)
    (hsurface : (db.Get (Data2DKey.slice x z)).code = 0)
    (hc : (db.Get (SubChunkKey.slice x z subChunkIndex)).code = 0)
    (hval : (db.Get (SubChunkKey.slice x z subChunkIndex)).value
      = StdString.mk (versionByte :: body) beyond)
    (hprev : ∀ j, j < subChunkIndex → (db.Get (SubChunkKey.slice x z j)).code = 0 →
      ∃ s, processSubChunk x z j (db.Get (SubChunkKey.slice x z j)).value = .ok s) :
    leveldb_get_chunk_data leveldb_reference leveldb_path x z version
        = .error (.chunkVersion x z versionByte.val)
      ∧ ∀ d, leveldb_get_chunk_data leveldb_reference leveldb_path x z version ≠ .ok d := by
  have herr := get_chunk_data_version_error leveldb_reference leveldb_path db hopen x z version
    subChunkIndex hi versionByte hver body beyond hsurface hc hval hprev
  refine ⟨herr, ?_⟩
  intro d hd
  rw [herr] at hd
  cases hd

theorem malformed_subchunk_aborts_witness :
    ([("world", dbBadVersion)] : leveldb_ptrmap).lookup "world" = some dbBadVersion
      ∧ (1 : Nat) < SubChunkKey.MaxSubChunkCount ∧ (7 : Byte).val ≠ 8
      ∧ (dbBadVersion.Get (Data2DKey.slice 0 0)).code = 0
      ∧ dbBadVersion.Get (SubChunkKey.slice 0 0 1) = ⟨0, StdString.mk (7 :: [1, 8]) fun _ => 0⟩
      ∧ (∀ j, j < 1 → (dbBadVersion.Get (SubChunkKey.slice 0 0 j)).code = 0 →
          ∃ s, processSubChunk 0 0 j (dbBadVersion.Get (SubChunkKey.slice 0 0 j)).value = .ok s)
      ∧ ∀ d, leveldb_get_chunk_data [("world", dbBadVersion)] "world" 0 0 0 ≠ .ok d :=
  have hprev : ∀ j, j < 1 → (dbBadVersion.Get (SubChunkKey.slice 0 0 j)).code = 0 →
      ∃ s, processSubChunk 0 0 j (dbBadVersion.Get (SubChunkKey.slice 0 0 j)).value = .ok s := by
    intro j hj _
    have hj0 : j = 0 := by omega
    subst hj0
    exact record4_decodes 0 0 0 (fun _ => 0)
  ⟨rfl, by decide, by decide, rfl, rfl, hprev,
    (malformed_subchunk_aborts [("world", dbBadVersion)] "world" dbBadVersion rfl 0 0 0 1
      (by decide) 7 (by decide) [1, 8] (fun _ => 0) rfl rfl rfl hprev).2⟩

theorem c_str_beyond (s : StdString) (i : Nat) (h : s.bytes.length < i) :
    s.c_str i = s.beyond (i - s.bytes.length - 1) := by
  unfold StdString.c_str
  rw [List.getElem?_eq_none (by omega)]
  exact if_neg (by omega)

/-- The last block id unpacked from a width-3 record of `3 + 1640 + 4` bytes is read from the
memory behind the record. -/
theorem last_id_beyond (beyond : Nat → Byte) :
    ∃ s, processSubChunk 0 0 0
          (StdString.mk (8 :: 1 :: 6 :: (arrTop 0 ++ [0, 0, 0, 0])) beyond) = .ok s
      ∧ (s._blockdata.map Fin.val)[4095]? = some ((beyond 402).val / 8 % 8) := by
  obtain ⟨hv, hf⟩ := header_val 1 6 (arrTop 0 ++ [0, 0, 0, 0]) beyond
  have hlen : (8 :: 1 :: 6 :: (arrTop 0 ++ [0, 0, 0, 0]) : List Byte).length = 1647 := by
    simp only [List.length_cons, List.length_append, arrTop_length, List.length_nil]
  have hsz : (StdString.mk (8 :: 1 :: 6 :: (arrTop 0 ++ [0, 0, 0, 0])) beyond).size = 1647 :=
    hlen
  have hf3 : ((StdString.mk (8 :: 1 :: 6 :: (arrTop 0 ++ [0, 0, 0, 0])) beyond).c_str 2).val
      = 2 * 3 := hf
  obtain ⟨s, hs, _, _, hbd, _⟩ := processSubChunk_supported_section 0 0 0 3 (by decide) _ hv
    hf3 (by rw [hsz]; decide) (by rw [hsz]; decide)
  refine ⟨s, hs, ?_⟩
  rw [hbd, switch_block_id 3 (by decide), List.map_map, List.getElem?_map,
    List.getElem?_range (by decide : 4095 < 4096)]
  simp only [Option.map_some', Function.comp, byte_idAt_val 3 (by decide)]
  unfold idAt
  have hc := c_str_beyond (StdString.mk (8 :: 1 :: 6 :: (arrTop 0 ++ [0, 0, 0, 0])) beyond)
    (3 + 4095 / (8 / 3)) (by rw [show (StdString.mk (8 :: 1 :: 6 :: (arrTop 0 ++ [0, 0, 0, 0]))
      beyond).bytes.length = 1647 from hlen]; decide)
  rw [hc, show (StdString.mk (8 :: 1 :: 6 :: (arrTop 0 ++ [0, 0, 0, 0]))
      beyond).bytes.length = 1647 from hlen, Nat.shiftRight_eq_div_pow]
  rfl

/-! ## Reads of the unpacking loops, and the position entries -/

/-- C19 (the code departs from the claim): the structs the unpacking loops walk over span
`StructsPerChunk * sizeof` = 2048, 2048, 4096 and 4096 bytes for the field values 6, 8, 10 and
12, while the block array takes 1640, 2048, 2732 and 3280 bytes; and for the width-3 record of
exactly `3 + 1640 + 4 + 0` bytes that are all zero behind the width field, the last block id
unpacked is 7 when the memory behind the record holds `FF` bytes and 0 when it holds zeros: it
is read past the end of the record. -/
theorem unpack_reads_past_block_array :
    (BlockData_6.StructsPerChunk * BlockData_6.sizeof = 2048 ∧ requiredBytes 3 = 1640)
      ∧ (BlockData_8.StructsPerChunk * BlockData_8.sizeof = 2048 ∧ requiredBytes 4 = 2048)
      ∧ (BlockData_10.StructsPerChunk * BlockData_10.sizeof = 4096 ∧ requiredBytes 5 = 2732)
      ∧ (BlockData_12.StructsPerChunk * BlockData_12.sizeof = 4096 ∧ requiredBytes 6 = 3280)
      ∧ (8 :: 1 :: 6 :: (arrTop 0 ++ [0, 0, 0, 0]) : List Byte).length = 3 + 1640 + 4 + 0
      ∧ (∃ s, processSubChunk 0 0 0
              (StdString.mk (8 :: 1 :: 6 :: (arrTop 0 ++ [0, 0, 0, 0])) fun _ => 255) = .ok s
            ∧ (s._blockdata.map Fin.val)[4095]? = some 7)
      ∧ (∃ s, processSubChunk 0 0 0
              (StdString.mk (8 :: 1 :: 6 :: (arrTop 0 ++ [0, 0, 0, 0])) fun _ => 0) = .ok s
            ∧ (s._blockdata.map Fin.val)[4095]? = some 0) := by
  refine ⟨by decide, by decide, by decide, by decide, ?_, last_id_beyond (fun _ => 255),
    last_id_beyond (fun _ => 0)⟩
  simp only [List.length_cons, List.length_append, arrTop_length, List.length_nil]

/-- What a successful `leveldb_get_chunk_data` call returns. -/
theorem get_chunk_data_ok (leveldb_reference : leveldb_ptrmap) (leveldb_path : String)
    (x z version : Int) (d : PyDict)
    (h : leveldb_get_chunk_data leveldb_reference leveldb_path x z version = .ok d) :
    ∃ biomes heightMap list,
      d = [("xPos", .int z), ("Biomes", .str biomes), ("HeightMap", .intTuple heightMap),
        ("Sections", .sections list)] := by
  cases hopen : leveldb_reference.lookup leveldb_path with
  | none =>
    unfold leveldb_get_chunk_data at h
    rw [hopen] at h
    cases h
  | some db =>
    rw [get_chunk_data_eq leveldb_reference leveldb_path db hopen] at h
    by_cases hc : (db.Get (Data2DKey.slice x z)).code = 0
    · rw [processData2D_of_ok db x z version _ hc] at h
      simp only [] at h
      unfold processSubChunks at h
      cases hl : processSubChunksLoop db x z (List.range SubChunkKey.MaxSubChunkCount) [] with
      | ok list =>
        rw [hl] at h
        injection h with h
        exact ⟨_, _, list, h.symm⟩
      | error e => rw [hl] at h; cases h
      | lengthError => rw [hl] at h; cases h
    · rw [processData2D_of_miss db x z version _ hc] at h
      cases h

/-- C20 (the code departs from the claim): every dictionary `leveldb_get_chunk_data` returns has
the four keys `xPos`, `Biomes`, `HeightMap` and `Sections` and no other; its `xPos` entry is the
requested `z`, and no entry holds the requested `x`. -/
theorem chunk_data_position (leveldb_reference : leveldb_ptrmap) (leveldb_path : String)
    (x z version : Int) (d : PyDict)
    (h : leveldb_get_chunk_data leveldb_reference leveldb_path x z version = .ok d) :
    PyDict_GetItem d "xPos" = some (.int z)
      ∧ d.map (fun e => e.1) = ["xPos", "Biomes", "HeightMap", "Sections"]
      ∧ (x ≠ z → ∀ e ∈ d, e.2 ≠ .int x) := by
  obtain ⟨biomes, heightMap, list, rfl⟩ := get_chunk_data_ok _ _ _ _ _ _ h
  refine ⟨rfl, rfl, ?_⟩
  intro hxz e he
  simp only [List.mem_cons, List.mem_singleton, List.not_mem_nil, or_false] at he
  rcases he with rfl | rfl | rfl | rfl
  · intro heq
    injection heq with heq
    exact hxz heq.symm
  · intro heq; cases heq
  · intro heq; cases heq
  · intro heq; cases heq

theorem chunk_data_position_witness :
    ∃ d, leveldb_get_chunk_data [("world", dbOfList [(Data2DKey.slice 1 2, surface768)])]
          "world" 1 2 0 = .ok d
      ∧ PyDict_GetItem d "xPos" = some (.int 2)
      ∧ d.map (fun e => e.1) = ["xPos", "Biomes", "HeightMap", "Sections"] := by
  have hok : ∃ d, leveldb_get_chunk_data
      [("world", dbOfList [(Data2DKey.slice 1 2, surface768)])] "world" 1 2 0 = .ok d := by
    rw [get_chunk_data_eq [("world", dbOfList [(Data2DKey.slice 1 2, surface768)])] "world"
        (dbOfList [(Data2DKey.slice 1 2, surface768)]) rfl,
      processData2D_of_ok _ 1 2 0 _ rfl]
    obtain ⟨secs, hloop, _⟩ := loop_sections (dbOfList [(Data2DKey.slice 1 2, surface768)]) 1 2
      (List.range SubChunkKey.MaxSubChunkCount) []
      (fun i hi hc => by
        have hi16 : i < 16 := List.mem_range.mp hi
        interval_cases i <;> exact absurd hc (by decide))
    simp only []
    unfold processSubChunks
    rw [hloop]
    exact ⟨_, rfl⟩
  obtain ⟨d, hd⟩ := hok
  exact ⟨d, hd, (chunk_data_position _ _ _ _ _ d hd).1, (chunk_data_position _ _ _ _ _ d hd).2.1⟩

end Leveldb
